import Mathlib

/-!
# Verification of `Vector<T>` (src/vector_h.h)

Shallow embedding of the class template `Vector<T>`.

* A vector is the triple `size_`, `capacity_`, `data_` of the source.  The
  buffer `data_` is `none` for `nullptr` and `some buf` for a block returned by
  `new T[n]`, where `buf.length` is the number of slots really allocated.
* `size_t` is 64 bits wide: the places where the source does arithmetic
  that can wrap (`size_ - 1`, `capacity_ * 2`, `size_++`) reduce modulo `2 ^ 64`.
* Every access `data_[i]` goes through `readSlot` / `writeSlot`, which report
  `Fault.undefinedBehaviour` when `i` is not a slot of the allocated block.
* The element type is a parameter (`Element T`): its default value `T()`, the
  state a value is left in after it has been moved from, and whether copying
  from a value throws.  Move assignment and default construction do not throw,
  a copy assignment that throws leaves its target untouched, and `new T[n]`
  never fails and default-constructs its `n` slots.
-/

namespace VectorH

/-- Number of values of the type `size_t`. -/
def SIZE_T_MOD : Nat := 2 ^ 64

/-- Operations of the element type `T` that the container relies on. -/
class Element (T : Type) where
  /-- The value `T()`. -/
  init : T
  /-- State of an object after `std::move` has taken its value. -/
  movedFrom : T → T
  /-- Whether copy construction / copy assignment from this value throws. -/
  copyThrows : T → Bool

/-- The data members of `Vector<T>` (lines 398-400). -/
structure Vector (T : Type) where
  size_ : Nat
  capacity_ : Nat
  data_ : Option (List T)
deriving DecidableEq, Repr

/-- Ways in which a call does not return normally. -/
inductive Fault (T : Type) where
  /-- An access `data_[i]` outside the allocated block (or through `nullptr`). -/
  | undefinedBehaviour : Fault T
  /-- The constructor threw `VectorInitializationException`; no object exists. -/
  | VectorInitializationException : Fault T
  /-- The exception `std::out_of_range` thrown by `At`. -/
  | out_of_range : Fault T
  /-- An exception of the element type left the member function; the vector is left in `state`. -/
  | propagated (state : Vector T) : Fault T
deriving DecidableEq, Repr

variable {T : Type}

/-- The block returned by `new T[n]`: `n` default-constructed slots. -/
def newArray [Element T] (n : Nat) : List T := List.replicate n Element.init

/-- Number of slots of a block (`0` for `nullptr`). -/
def bufLen (d : Option (List T)) : Nat :=
  match d with
  | none => 0
  | some buf => buf.length

/-- Read of `data_[i]`. -/
def readSlot (d : Option (List T)) (i : Nat) : Except (Fault T) T :=
  match d with
  | none => Except.error Fault.undefinedBehaviour
  | some buf =>
    match buf[i]? with
    | some x => Except.ok x
    | none => Except.error Fault.undefinedBehaviour

/-- Assignment `data_[i] = x` (the new contents of the block). -/
def writeSlot (d : Option (List T)) (i : Nat) (x : T) : Except (Fault T) (Option (List T)) :=
  match d with
  | none => Except.error Fault.undefinedBehaviour
  | some buf =>
    if i < buf.length then Except.ok (some (buf.set i x))
    else Except.error Fault.undefinedBehaviour

/-- The loop `for (; i < end; i++) dst[i] = std::move(src[i]);` with `k = end - i`
iterations left (lines 238-240 and 273-275). -/
def moveLoop (src : Option (List T)) :
    Nat → Nat → Option (List T) → Except (Fault T) (Option (List T))
  | _, 0, dst => Except.ok dst
  | i, k + 1, dst =>
    match readSlot src i with
    | Except.error e => Except.error e
    | Except.ok x =>
      match writeSlot dst i x with
      | Except.error e => Except.error e
      | Except.ok dst1 => moveLoop src (i + 1) k dst1

/-- The algorithm `std::copy(src + i, src + i + k, dst + i)`: element-wise copy
assignment.  When the copy of an element throws, the fault `onThrow dst` is
raised, `dst` being the block as filled so far. -/
def copyLoop [Element T] (onThrow : Option (List T) → Fault T) (src : Option (List T)) :
    Nat → Nat → Option (List T) → Except (Fault T) (Option (List T))
  | _, 0, dst => Except.ok dst
  | i, k + 1, dst =>
    match readSlot src i with
    | Except.error e => Except.error e
    | Except.ok x =>
      if Element.copyThrows x then Except.error (onThrow dst)
      else
        match writeSlot dst i x with
        | Except.error e => Except.error e
        | Except.ok dst1 => copyLoop onThrow src (i + 1) k dst1

/-- A loop `for (; i < end; i++) dst[i] = x;` with `k = end - i` iterations left,
where the assigned value becomes `next x` for the following iteration:
`next` is constant `T()` for `data_[i] = T()`, the identity for `std::fill`,
and `Element.movedFrom` for `data_[i] = std::move(value)`. -/
def storeLoop (next : T → T) :
    Nat → Nat → T → Option (List T) → Except (Fault T) (Option (List T))
  | _, 0, _, dst => Except.ok dst
  | i, k + 1, x, dst =>
    match writeSlot dst i x with
    | Except.error e => Except.error e
    | Except.ok dst1 => storeLoop next (i + 1) k (next x) dst1

namespace Vector

/-- The constructor `Vector()` (line 27). -/
def ctor : Vector T := ⟨0, 0, none⟩

/-- The constructor `Vector(size_t size)` (lines 29-45). -/
def ctorSize [Element T] (size : Nat) : Except (Fault T) (Vector T) :=
  if size > 0 then
    match storeLoop (fun _ => (Element.init : T)) 0 size Element.init (some (newArray size)) with
    | Except.error e => Except.error e
    | Except.ok d => Except.ok ⟨size, size, d⟩
  else Except.ok ⟨0, 0, none⟩

/-- The constructor `Vector(size_t size, T value)` (lines 47-60); `std::fill`
copy-assigns `value` into every slot. -/
def ctorSizeValue [Element T] (size : Nat) (value : T) : Except (Fault T) (Vector T) :=
  if size > 0 then
    if Element.copyThrows value then Except.error Fault.VectorInitializationException
    else
      match storeLoop id 0 size value (some (newArray size)) with
      | Except.error e => Except.error e
      | Except.ok d => Except.ok ⟨size, size, d⟩
  else Except.ok ⟨0, size, none⟩

/-- The constructor `Vector(std::initializer_list<T> list)` (lines 62-76). -/
def ctorList [Element T] (list : List T) : Except (Fault T) (Vector T) :=
  if list.length ≠ 0 then
    match copyLoop (fun _ => Fault.VectorInitializationException) (some list) 0 list.length
        (some (newArray list.length)) with
    | Except.error e => Except.error e
    | Except.ok d => Except.ok ⟨list.length, list.length, d⟩
  else Except.ok ⟨0, 0, none⟩

/-- The copy constructor `Vector(const Vector& other)` (lines 82-96). -/
def ctorCopy [Element T] (other : Vector T) : Except (Fault T) (Vector T) :=
  if other.size_ ≠ 0 then
    match copyLoop (fun _ => Fault.VectorInitializationException) other.data_ 0 other.size_
        (some (newArray other.size_)) with
    | Except.error e => Except.error e
    | Except.ok d => Except.ok ⟨other.size_, other.capacity_, d⟩
  else Except.ok ⟨other.size_, other.capacity_, none⟩

/-- The move constructor `Vector(Vector&& other)` (lines 98-102): the new object
and the state `other` is left in. -/
def ctorMove (other : Vector T) : Vector T × Vector T :=
  (⟨other.size_, other.capacity_, other.data_⟩, ⟨0, 0, none⟩)

/-- Move assignment `operator=(Vector&& other)` (lines 104-115): the states of
`*this` and of `other` afterwards.  `sameObject` is the test `this == &other`. -/
def assignMove (self other : Vector T) (sameObject : Bool) : Vector T × Vector T :=
  if !sameObject then (⟨other.size_, other.capacity_, other.data_⟩, ⟨0, 0, none⟩)
  else (self, other)

/-- Copy assignment `operator=(const Vector& other)` (lines 117-129).
`sameObject` is the test `this == &other`. -/
def assignCopy [Element T] (self other : Vector T) (sameObject : Bool) :
    Except (Fault T) (Vector T) :=
  if !sameObject then
    let data0 : Option (List T) := if other.size_ ≠ 0 then some (newArray other.size_) else none
    match copyLoop (fun d => Fault.propagated ⟨other.size_, other.capacity_, d⟩)
        other.data_ 0 other.size_ data0 with
    | Except.error e => Except.error e
    | Except.ok d => Except.ok ⟨other.size_, other.capacity_, d⟩
  else Except.ok self

/-- The member `operator[]` (lines 131-137). -/
def index (v : Vector T) (idx : Nat) : Except (Fault T) T := readSlot v.data_ idx

/-- The member `At` (lines 139-151). -/
def At (v : Vector T) (idx : Nat) : Except (Fault T) T :=
  if idx ≥ v.size_ then Except.error Fault.out_of_range
  else readSlot v.data_ idx

/-- The member `Size` (line 177). -/
def Size (v : Vector T) : Nat := v.size_

/-- The member `Capacity` (line 181). -/
def Capacity (v : Vector T) : Nat := v.capacity_

/-- The member `Empty` (line 185). -/
def Empty (v : Vector T) : Bool := v.size_ == 0

/-- The member `Swap` (lines 189-193): the states of `*this` and of `arr` afterwards. -/
def Swap (self arr : Vector T) : Vector T × Vector T :=
  (⟨arr.size_, arr.capacity_, arr.data_⟩, ⟨self.size_, self.capacity_, self.data_⟩)

/-- The member `Clear` (lines 247-249). -/
def Clear (v : Vector T) : Vector T := { v with size_ := 0 }

/-- The member `Reserve` (lines 251-279). -/
def Reserve [Element T] (v : Vector T) (new_cap : Nat) : Except (Fault T) (Vector T) :=
  if new_cap = v.capacity_ ∨ new_cap < v.capacity_ then Except.ok v
  else if new_cap = 0 then Except.ok ⟨0, 0, none⟩
  else if v.capacity_ = 0 then
    Except.ok { v with data_ := some (newArray new_cap), capacity_ := new_cap }
  else
    let v1 : Vector T :=
      if v.size_ = 0 then { v with data_ := some (newArray new_cap), capacity_ := new_cap }
      else v
    match moveLoop v1.data_ 0 v1.size_ (some (newArray new_cap)) with
    | Except.error e => Except.error e
    | Except.ok tmp => Except.ok { v1 with data_ := tmp, capacity_ := new_cap }

/-- The member `Resize(size_t new_size)` (lines 195-212). -/
def Resize [Element T] (v : Vector T) (new_size : Nat) : Except (Fault T) (Vector T) :=
  if new_size ≤ 0 then Except.ok ⟨0, 0, none⟩
  else if new_size ≤ v.size_ then Except.ok { v with size_ := new_size }
  else
    match (if new_size > v.capacity_ then v.Reserve new_size else Except.ok v) with
    | Except.error e => Except.error e
    | Except.ok v1 =>
      match storeLoop (fun _ => (Element.init : T)) v1.size_ (new_size - v1.size_)
          Element.init v1.data_ with
      | Except.error e => Except.error e
      | Except.ok d => Except.ok { v1 with data_ := d, size_ := new_size }

/-- The member `Resize(size_t new_size, T value)` (lines 214-233). -/
def ResizeValue [Element T] (v : Vector T) (new_size : Nat) (value : T) :
    Except (Fault T) (Vector T) :=
  if new_size ≤ 0 then Except.ok ⟨0, 0, none⟩
  else if new_size ≤ v.size_ then Except.ok { v with size_ := new_size }
  else
    match (if new_size > v.capacity_ then v.Reserve new_size else Except.ok v) with
    | Except.error e => Except.error e
    | Except.ok v1 =>
      match storeLoop Element.movedFrom v1.size_ (new_size - v1.size_) value v1.data_ with
      | Except.error e => Except.error e
      | Except.ok d => Except.ok { v1 with data_ := d, size_ := new_size }

/-- The member `ShrinkToFit` (lines 235-245). -/
def ShrinkToFit [Element T] (v : Vector T) : Except (Fault T) (Vector T) :=
  if v.capacity_ > v.size_ then
    let new_data : Option (List T) := if v.size_ ≠ 0 then some (newArray v.size_) else none
    match moveLoop v.data_ 0 v.size_ new_data with
    | Except.error e => Except.error e
    | Except.ok d => Except.ok { v with data_ := d, capacity_ := v.size_ }
  else Except.ok v

/-- The member `PushBack(T&& value)` (lines 303-312). -/
def PushBack [Element T] (v : Vector T) (value : T) : Except (Fault T) (Vector T) :=
  match (if v.capacity_ = 0 then v.Reserve 1 else Except.ok v) with
  | Except.error e => Except.error e
  | Except.ok v1 =>
    match (if v1.size_ = v1.capacity_ then v1.Reserve ((v1.capacity_ * 2) % SIZE_T_MOD)
           else Except.ok v1) with
    | Except.error e => Except.error e
    | Except.ok v2 =>
      match writeSlot v2.data_ v2.size_ value with
      | Except.error e => Except.error e
      | Except.ok d => Except.ok { v2 with data_ := d, size_ := (v2.size_ + 1) % SIZE_T_MOD }

/-- The member `PushBack(const T& value)` (lines 281-301).  `last` is the index
`size_ - 1` computed in `size_t`. -/
def PushBackConstRef [Element T] (v : Vector T) (value : T) : Except (Fault T) (Vector T) :=
  let last := (v.size_ + SIZE_T_MOD - 1) % SIZE_T_MOD
  match readSlot v.data_ last with
  | Except.error e => Except.error e
  | Except.ok tmp_old =>
    if Element.copyThrows tmp_old then Except.error (Fault.propagated v)
    else if Element.copyThrows value then Except.error (Fault.propagated v)
    else
      match writeSlot v.data_ last value with
      | Except.error e => Except.error e
      | Except.ok d1 =>
        match writeSlot d1 last tmp_old with
        | Except.error e => Except.error e
        | Except.ok d2 =>
          let v0 : Vector T := { v with data_ := d2 }
          match (if v0.capacity_ = 0 then v0.Reserve 1 else Except.ok v0) with
          | Except.error e => Except.error e
          | Except.ok v1 =>
            match (if v1.size_ = v1.capacity_ then
                     v1.Reserve ((v1.capacity_ * 2) % SIZE_T_MOD)
                   else Except.ok v1) with
            | Except.error e => Except.error e
            | Except.ok v2 =>
              if Element.copyThrows value then Except.error (Fault.propagated v2)
              else
                match writeSlot v2.data_ v2.size_ value with
                | Except.error e => Except.error e
                | Except.ok d3 =>
                  Except.ok { v2 with data_ := d3, size_ := (v2.size_ + 1) % SIZE_T_MOD }

/-- The member `PopBack` (lines 314-320): the returned flag and the state afterwards. -/
def PopBack (v : Vector T) : Bool × Vector T :=
  if v.Empty then (false, v)
  else (true, { v with size_ := v.size_ - 1 })

end Vector

/-- The algorithm `std::equal(a + i, a + i + k, b + i)`. -/
def equalLoop [DecidableEq T] (a b : Option (List T)) : Nat → Nat → Except (Fault T) Bool
  | _, 0 => Except.ok true
  | i, k + 1 =>
    match readSlot a i with
    | Except.error e => Except.error e
    | Except.ok x =>
      match readSlot b i with
      | Except.error e => Except.error e
      | Except.ok y => if x = y then equalLoop a b (i + 1) k else Except.ok false

/-- The algorithm `std::lexicographical_compare(a + i, a + i + k1, b + i, b + i + k2)`:
the loop runs while both ranges are non-empty, returns `true` at the first
position with `a[i] < b[i]`, `false` at the first with `b[i] < a[i]`, and after
the loop returns whether the first range is exhausted and the second is not. -/
def lexLoop [LT T] [∀ x y : T, Decidable (x < y)] (a b : Option (List T)) :
    Nat → Nat → Nat → Except (Fault T) Bool
  | _, 0, k2 => Except.ok (decide (k2 ≠ 0))
  | _, _ + 1, 0 => Except.ok false
  | i, k1 + 1, k2 + 1 =>
    match readSlot a i with
    | Except.error e => Except.error e
    | Except.ok x =>
      match readSlot b i with
      | Except.error e => Except.error e
      | Except.ok y =>
        if x < y then Except.ok true
        else if y < x then Except.ok false
        else lexLoop a b (i + 1) k1 k2

namespace Vector

/-- The member `operator==` (lines 322-327). -/
def opEq [DecidableEq T] (self arr : Vector T) : Except (Fault T) Bool :=
  if self.size_ ≠ arr.size_ then Except.ok false
  else equalLoop self.data_ arr.data_ 0 self.size_

/-- The member `operator<` (lines 333-335). -/
def opLt [LT T] [∀ x y : T, Decidable (x < y)] (self arr : Vector T) : Except (Fault T) Bool :=
  lexLoop self.data_ arr.data_ 0 self.size_ arr.size_

/-- The member `operator>` (lines 337-339): `arr < *this`. -/
def opGt [LT T] [∀ x y : T, Decidable (x < y)] (self arr : Vector T) : Except (Fault T) Bool :=
  opLt arr self

/-- The member `operator!=` (lines 329-331), whose body is the call `*this != arr`.
`fuel` bounds the depth of nested calls; `none` means the bound was exhausted
before any call returned. -/
def opNe (self arr : Vector T) : Nat → Option Bool
  | 0 => none
  | fuel + 1 => opNe self arr fuel

/-- The member `operator>=` (lines 345-347), whose body is the call `*this >= arr`;
`fuel` as in `opNe`. -/
def opGe (self arr : Vector T) : Nat → Option Bool
  | 0 => none
  | fuel + 1 => opGe self arr fuel

/-- The member `operator<=` (lines 341-343), whose body is the call `arr >= *this`;
`fuel` as in `opNe`. -/
def opLe (self arr : Vector T) : Nat → Option Bool
  | 0 => none
  | fuel + 1 => opGe arr self fuel

/-- Number of slots of the allocated block (`0` for `nullptr`). -/
def slots (v : Vector T) : Nat := bufLen v.data_

/-- A sequence of calls `PushBack(std::move(x))`, one for each `x` of the list in order. -/
def PushBackAll [Element T] (v : Vector T) : List T → Except (Fault T) (Vector T)
  | [] => Except.ok v
  | x :: xs =>
    match v.PushBack x with
    | Except.error e => Except.error e
    | Except.ok v1 => PushBackAll v1 xs

end Vector

/-- Element type `int`-like: default value `0`, moving leaves the value in place,
copying never throws. -/
instance natElement : Element Nat := ⟨0, id, fun _ => false⟩

/-- Element type like `std::shared_ptr<int>`: default value null, a moved-from
object is null, copying never throws. -/
instance ptrElement : Element (Option Nat) := ⟨none, fun _ => none, fun _ => false⟩

/-- Element type with one value, `bad`, whose copy throws; default value `good`,
moving leaves the value in place. -/
inductive Fragile where
  | good : Fragile
  | bad : Fragile
deriving DecidableEq, Repr

/-- The element operations of `Fragile`. -/
instance fragileElement : Element Fragile :=
  ⟨Fragile.good, id, fun x => match x with
    | Fragile.good => false
    | Fragile.bad => true⟩

/-! ## Slots and loops -/

theorem readSlot_some (buf : List T) (i : Nat) (h : i < buf.length) :
    readSlot (some buf) i = Except.ok (buf[i]) := by
  simp [readSlot, List.getElem?_eq_getElem h]

theorem readSlot_eq_ok_iff (buf : List T) (i : Nat) (x : T) :
    readSlot (some buf) i = Except.ok x ↔ buf[i]? = some x := by
  simp only [readSlot]
  cases buf[i]? <;> simp

theorem writeSlot_some (buf : List T) (i : Nat) (x : T) (h : i < buf.length) :
    writeSlot (some buf) i x = Except.ok (some (buf.set i x)) := by
  simp [writeSlot, h]

theorem moveLoop_ok (sbuf : List T) :
    ∀ (k i : Nat) (dbuf : List T), i + k ≤ sbuf.length → i + k ≤ dbuf.length →
      ∃ r, moveLoop (some sbuf) i k (some dbuf) = Except.ok (some r) ∧ r.length = dbuf.length ∧
        ∀ j, r[j]? = if i ≤ j ∧ j < i + k then sbuf[j]? else dbuf[j]? := by
  intro k
  induction k with
  | zero =>
    intro i dbuf _ _
    refine ⟨dbuf, rfl, rfl, ?_⟩
    intro j
    have : ¬ (i ≤ j ∧ j < i + 0) := by omega
    rw [if_neg this]
  | succ k ih =>
    intro i dbuf hs hd
    have hi : i < sbuf.length := by omega
    have hi2 : i < dbuf.length := by omega
    obtain ⟨r, hr, hlen, hget⟩ := ih (i + 1) (dbuf.set i sbuf[i]) (by omega) (by simp; omega)
    refine ⟨r, ?_, ?_, ?_⟩
    · simp only [moveLoop, readSlot_some sbuf i hi, writeSlot_some dbuf i _ hi2]
      exact hr
    · simpa using hlen
    · intro j
      rw [hget j]
      by_cases h1 : i + 1 ≤ j ∧ j < i + 1 + k
      · have : i ≤ j ∧ j < i + (k + 1) := by omega
        simp [h1, this]
      · by_cases h2 : j = i
        · subst h2
          have : j ≤ j ∧ j < j + (k + 1) := by omega
          simp [h1, this, List.getElem?_eq_getElem hi, List.getElem?_set, hi2]
        · have : ¬ (i ≤ j ∧ j < i + (k + 1)) := by omega
          simp [h1, this, List.getElem?_set]
          omega

theorem storeLoop_ok (next : T → T) :
    ∀ (k i : Nat) (x : T) (dbuf : List T), i + k ≤ dbuf.length →
      ∃ r, storeLoop next i k x (some dbuf) = Except.ok (some r) ∧ r.length = dbuf.length ∧
        ∀ j, r[j]? = if i ≤ j ∧ j < i + k then some (next^[j - i] x) else dbuf[j]? := by
  intro k
  induction k with
  | zero =>
    intro i x dbuf _
    refine ⟨dbuf, rfl, rfl, ?_⟩
    intro j
    have : ¬ (i ≤ j ∧ j < i + 0) := by omega
    rw [if_neg this]
  | succ k ih =>
    intro i x dbuf hd
    have hi2 : i < dbuf.length := by omega
    obtain ⟨r, hr, hlen, hget⟩ := ih (i + 1) (next x) (dbuf.set i x) (by simp; omega)
    refine ⟨r, ?_, ?_, ?_⟩
    · simp only [storeLoop, writeSlot_some dbuf i _ hi2]
      exact hr
    · simpa using hlen
    · intro j
      rw [hget j]
      by_cases h1 : i + 1 ≤ j ∧ j < i + 1 + k
      · have : i ≤ j ∧ j < i + (k + 1) := by omega
        have e : j - i = (j - (i + 1)) + 1 := by omega
        simp [h1, this, e, Function.iterate_succ_apply]
      · by_cases h2 : j = i
        · subst h2
          have : j ≤ j ∧ j < j + (k + 1) := by omega
          simp [h1, this, List.getElem?_set, hi2]
        · have : ¬ (i ≤ j ∧ j < i + (k + 1)) := by omega
          simp [h1, this, List.getElem?_set]
          omega

theorem writeSlot_bufLen (d r : Option (List T)) (i : Nat) (x : T)
    (h : writeSlot d i x = Except.ok r) : bufLen r = bufLen d := by
  cases d with
  | none => simp [writeSlot] at h
  | some buf =>
    simp only [writeSlot] at h
    split at h
    · cases h
      simp [bufLen]
    · cases h

theorem moveLoop_bufLen (src : Option (List T)) :
    ∀ (k i : Nat) (dst r : Option (List T)),
      moveLoop src i k dst = Except.ok r → bufLen r = bufLen dst := by
  intro k
  induction k with
  | zero =>
    intro i dst r h
    simp only [moveLoop] at h
    cases h
    rfl
  | succ k ih =>
    intro i dst r h
    simp only [moveLoop] at h
    split at h
    · cases h
    · split at h
      · cases h
      · rename_i dst1 hw
        rw [ih _ _ _ h, writeSlot_bufLen _ _ _ _ hw]

theorem storeLoop_bufLen (next : T → T) :
    ∀ (k i : Nat) (x : T) (dst r : Option (List T)),
      storeLoop next i k x dst = Except.ok r → bufLen r = bufLen dst := by
  intro k
  induction k with
  | zero =>
    intro i x dst r h
    simp only [storeLoop] at h
    cases h
    rfl
  | succ k ih =>
    intro i x dst r h
    simp only [storeLoop] at h
    split at h
    · cases h
    · rename_i dst1 hw
      rw [ih _ _ _ _ h, writeSlot_bufLen _ _ _ _ hw]

theorem copyLoop_bufLen [Element T] (onThrow : Option (List T) → Fault T)
    (src : Option (List T)) :
    ∀ (k i : Nat) (dst r : Option (List T)),
      copyLoop onThrow src i k dst = Except.ok r → bufLen r = bufLen dst := by
  intro k
  induction k with
  | zero =>
    intro i dst r h
    simp only [copyLoop] at h
    cases h
    rfl
  | succ k ih =>
    intro i dst r h
    simp only [copyLoop] at h
    split at h
    · cases h
    · split at h
      · cases h
      · split at h
        · cases h
        · rename_i dst1 hw
          rw [ih _ _ _ h, writeSlot_bufLen _ _ _ _ hw]

/-- Without a throwing element in the copied range, `std::copy` fills the
destination like the move loop does. -/
theorem copyLoop_eq_moveLoop [Element T] (onThrow : Option (List T) → Fault T)
    (sbuf : List T) (hc : ∀ x ∈ sbuf, Element.copyThrows x = false) :
    ∀ (k i : Nat) (dst : Option (List T)),
      copyLoop onThrow (some sbuf) i k dst = moveLoop (some sbuf) i k dst := by
  intro k
  induction k with
  | zero => intro i dst; rfl
  | succ k ih =>
    intro i dst
    simp only [copyLoop, moveLoop]
    cases hr : readSlot (some sbuf) i with
    | error e => rfl
    | ok x =>
      have hx : x ∈ sbuf := by
        rw [readSlot_eq_ok_iff] at hr
        exact List.mem_iff_getElem?.mpr ⟨i, hr⟩
      simp only [hc x hx, Bool.false_eq_true, if_false]
      cases writeSlot dst i x with
      | error e => rfl
      | ok d => exact ih _ _

/-! ## `Reserve` -/

theorem bufLen_newArray [Element T] (n : Nat) :
    bufLen (some (newArray n : List T)) = n := by
  simp [bufLen, newArray]

theorem Reserve_noop [Element T] (v : Vector T) (n : Nat) (h : n ≤ v.capacity_) :
    v.Reserve n = Except.ok v := by
  have : n = v.capacity_ ∨ n < v.capacity_ := by omega
  simp [Vector.Reserve, this]

/-- What any normal return of `Reserve` says about the data members. -/
theorem Reserve_fields [Element T] (v v1 : Vector T) (n : Nat)
    (h : v.Reserve n = Except.ok v1) :
    v1.size_ = v.size_ ∧ v1.capacity_ = max v.capacity_ n ∧
      (v.capacity_ < n → v1.slots = n) := by
  by_cases hle : n ≤ v.capacity_
  · rw [Reserve_noop v n hle] at h
    cases h
    refine ⟨rfl, ?_, ?_⟩
    · omega
    · intro h2; omega
  · have h1 : ¬ (n = v.capacity_ ∨ n < v.capacity_) := by omega
    have h2 : n ≠ 0 := by omega
    simp only [Vector.Reserve, h1, h2, if_false] at h
    split at h
    · cases h
      refine ⟨rfl, ?_, ?_⟩
      · simp only; omega
      · intro _; exact bufLen_newArray n
    · split at h
      · cases h
      · rename_i tmp hm
        cases h
        have hl := moveLoop_bufLen _ _ _ _ _ hm
        rw [bufLen_newArray] at hl
        refine ⟨?_, ?_, ?_⟩
        · simp only; split <;> rfl
        · simp only; omega
        · intro _; exact hl

/-- On a vector whose live elements lie inside its block, `Reserve` returns
normally and keeps every live element. -/
theorem Reserve_ok [Element T] (v : Vector T) (n : Nat)
    (hsz : v.size_ ≤ v.capacity_) (hbuf : v.size_ ≤ v.slots) :
    ∃ v1, v.Reserve n = Except.ok v1 ∧
      ∀ j, j < v.size_ → readSlot v1.data_ j = readSlot v.data_ j := by
  by_cases hle : n ≤ v.capacity_
  · exact ⟨v, Reserve_noop v n hle, fun _ _ => rfl⟩
  · have h1 : ¬ (n = v.capacity_ ∨ n < v.capacity_) := by omega
    have h2 : n ≠ 0 := by omega
    simp only [Vector.Reserve, h1, h2, if_false]
    by_cases hc : v.capacity_ = 0
    · simp only [hc, if_true]
      refine ⟨_, rfl, ?_⟩
      intro j hj; omega
    · simp only [hc, if_false]
      by_cases hs : v.size_ = 0
      · simp only [hs, if_true, moveLoop]
        refine ⟨_, rfl, ?_⟩
        intro j hj; omega
      · simp only [hs, if_false]
        cases hd : v.data_ with
        | none => simp [Vector.slots, bufLen, hd] at hbuf; omega
        | some sbuf =>
          have hb : v.size_ ≤ sbuf.length := by simpa [Vector.slots, bufLen, hd] using hbuf
          obtain ⟨r, hr, _, hget⟩ := moveLoop_ok sbuf v.size_ 0 (newArray n)
            (by omega) (by simp [newArray]; omega)
          rw [hr]
          refine ⟨_, rfl, ?_⟩
          intro j hj
          have : 0 ≤ j ∧ j < 0 + v.size_ := by omega
          simp only [readSlot, hget j, this, and_self, if_true]

/-- The behaviour of `Reserve` on a vector whose block has `capacity_` slots. -/
theorem Reserve_spec [Element T] (v : Vector T) (n : Nat)
    (hsz : v.size_ ≤ v.capacity_) (hbuf : v.slots = v.capacity_) :
    ∃ v1, v.Reserve n = Except.ok v1 ∧ v1.size_ = v.size_ ∧
      v1.capacity_ = max v.capacity_ n ∧ v1.slots = v1.capacity_ ∧
      (n ≤ v.capacity_ → v1 = v) ∧
      ∀ j, j < v.size_ → readSlot v1.data_ j = readSlot v.data_ j := by
  obtain ⟨v1, h1, hlive⟩ := Reserve_ok v n hsz (by omega)
  obtain ⟨hs, hc, hsl⟩ := Reserve_fields v v1 n h1
  refine ⟨v1, h1, hs, hc, ?_, ?_, hlive⟩
  · by_cases hle : n ≤ v.capacity_
    · rw [Reserve_noop v n hle] at h1
      cases h1
      exact hbuf
    · rw [hsl (by omega), hc]; omega
  · intro hle
    rw [Reserve_noop v n hle] at h1
    cases h1
    rfl

/-! ## `PushBack` -/

theorem readSlot_writeSlot_same (d r : Option (List T)) (i : Nat) (x : T)
    (h : writeSlot d i x = Except.ok r) : readSlot r i = Except.ok x := by
  cases d with
  | none => simp [writeSlot] at h
  | some buf =>
    simp only [writeSlot] at h
    split at h
    · rename_i hi
      cases h
      simp [readSlot, List.getElem?_set, hi]
    · cases h

theorem readSlot_writeSlot_other (d r : Option (List T)) (i j : Nat) (x : T)
    (h : writeSlot d i x = Except.ok r) (hj : j ≠ i) : readSlot r j = readSlot d j := by
  cases d with
  | none => simp [writeSlot] at h
  | some buf =>
    simp only [writeSlot] at h
    split at h
    · cases h
      have : ¬ i = j := fun e => hj e.symm
      simp [readSlot, List.getElem?_set, this]
    · cases h

theorem writeSlot_ok (d : Option (List T)) (i : Nat) (x : T) (h : i < bufLen d) :
    ∃ r, writeSlot d i x = Except.ok r := by
  cases d with
  | none => simp [bufLen] at h
  | some buf =>
    have hi : i < buf.length := by simpa [bufLen] using h
    exact ⟨_, writeSlot_some buf i x hi⟩

/-- The data members after any normal return of `PushBack(T&&)`. -/
theorem PushBack_fields [Element T] (v v1 : Vector T) (x : T)
    (hsz : v.size_ ≤ v.capacity_) (hcap : v.capacity_ < SIZE_T_MOD)
    (hov : v.size_ = v.capacity_ → v.capacity_ * 2 < SIZE_T_MOD)
    (h : v.PushBack x = Except.ok v1) :
    v1.size_ = v.size_ + 1 ∧
      v1.capacity_ = (if v.size_ < v.capacity_ then v.capacity_ else max 1 (2 * v.capacity_)) := by
  simp only [Vector.PushBack] at h
  split at h
  · cases h
  · rename_i a ha
    split at h
    · cases h
    · rename_i b hb
      split at h
      · cases h
      · rename_i d hd
        cases h
        simp only
        have hM : SIZE_T_MOD = 2 ^ 64 := rfl
        by_cases hc : v.capacity_ = 0
        · simp only [hc, if_true] at ha
          obtain ⟨fs, fc, _⟩ := Reserve_fields v a 1 ha
          have hne : ¬ a.size_ = a.capacity_ := by omega
          simp only [hne, if_false] at hb
          cases hb
          have hlt : ¬ v.size_ < v.capacity_ := by omega
          rw [if_neg hlt, fs, fc, hc]
          have : v.size_ = 0 := by omega
          rw [this]
          constructor
          · rw [hM]; norm_num
          · rfl
        · simp only [hc, if_false] at ha
          cases ha
          by_cases he : v.size_ = v.capacity_
          · have h2 := hov he
            simp only [he, if_true] at hb
            rw [Nat.mod_eq_of_lt h2] at hb
            obtain ⟨fs, fc, _⟩ := Reserve_fields v b _ hb
            have hlt : ¬ v.size_ < v.capacity_ := by omega
            rw [if_neg hlt, fs, fc]
            constructor
            · apply Nat.mod_eq_of_lt; omega
            · omega
          · simp only [he, if_false] at hb
            cases hb
            have hlt : v.size_ < v.capacity_ := by omega
            rw [if_pos hlt]
            constructor
            · apply Nat.mod_eq_of_lt; omega
            · trivial

/-- The precondition of `PushBack` that the block is large enough: the two
`Reserve` calls leave a vector with a free slot at index `size_`. -/
theorem PushBack_grow [Element T] (v : Vector T)
    (hsz : v.size_ ≤ v.capacity_) (hbuf : v.slots = v.capacity_)
    (hov : v.size_ = v.capacity_ → v.capacity_ * 2 < SIZE_T_MOD) :
    ∃ v1 v2, (if v.capacity_ = 0 then v.Reserve 1 else Except.ok v) = Except.ok v1 ∧
      (if v1.size_ = v1.capacity_ then v1.Reserve ((v1.capacity_ * 2) % SIZE_T_MOD)
        else Except.ok v1) = Except.ok v2 ∧
      v2.size_ = v.size_ ∧ v2.size_ < v2.capacity_ ∧ v2.slots = v2.capacity_ ∧
      v2.capacity_ = (if v.size_ < v.capacity_ then v.capacity_ else max 1 (2 * v.capacity_)) ∧
      ∀ j, j < v.size_ → readSlot v2.data_ j = readSlot v.data_ j := by
  by_cases hc : v.capacity_ = 0
  · obtain ⟨a, ha, fs, fc, fsl, _, flive⟩ := Reserve_spec v 1 hsz hbuf
    have hne : ¬ a.size_ = a.capacity_ := by omega
    refine ⟨a, a, by simp only [hc, if_true]; exact ha, by simp only [hne, if_false],
      fs, by omega, fsl, ?_, flive⟩
    have hlt : ¬ v.size_ < v.capacity_ := by omega
    rw [if_neg hlt, fc, hc]
    rfl
  · by_cases he : v.size_ = v.capacity_
    · have h2 := hov he
      obtain ⟨b, hb, fs, fc, fsl, _, flive⟩ := Reserve_spec v (v.capacity_ * 2) hsz hbuf
      refine ⟨v, b, by simp only [hc, if_false], ?_, fs, by omega, fsl, ?_, flive⟩
      · simp only [he, if_true]
        rw [Nat.mod_eq_of_lt h2]
        exact hb
      · have hlt : ¬ v.size_ < v.capacity_ := by omega
        rw [if_neg hlt, fc]
        omega
    · refine ⟨v, v, by simp only [hc, if_false], by simp only [he, if_false], rfl, by omega,
        hbuf, ?_, fun _ _ => rfl⟩
      have hlt : v.size_ < v.capacity_ := by omega
      rw [if_pos hlt]

/-- The behaviour of `PushBack(T&&)` on a vector whose block has `capacity_` slots. -/
theorem PushBack_spec [Element T] (v : Vector T) (x : T)
    (hsz : v.size_ ≤ v.capacity_) (hbuf : v.slots = v.capacity_)
    (hcap : v.capacity_ < SIZE_T_MOD)
    (hov : v.size_ = v.capacity_ → v.capacity_ * 2 < SIZE_T_MOD) :
    ∃ v1, v.PushBack x = Except.ok v1 ∧ v1.size_ = v.size_ + 1 ∧
      v1.capacity_ = (if v.size_ < v.capacity_ then v.capacity_ else max 1 (2 * v.capacity_)) ∧
      v1.size_ ≤ v1.capacity_ ∧ v1.slots = v1.capacity_ ∧ v1.capacity_ < SIZE_T_MOD ∧
      (∀ j, j < v.size_ → readSlot v1.data_ j = readSlot v.data_ j) ∧
      readSlot v1.data_ v.size_ = Except.ok x := by
  obtain ⟨a, b, ha, hb, fs, flt, fsl, fc, flive⟩ := PushBack_grow v hsz hbuf hov
  obtain ⟨d, hd⟩ := writeSlot_ok b.data_ b.size_ x (by
    have : b.slots = bufLen b.data_ := rfl
    omega)
  have hM : SIZE_T_MOD = 2 ^ 64 := rfl
  have hb2 : b.capacity_ < SIZE_T_MOD := by
    rw [fc]
    split
    · exact hcap
    · have := hov (by omega)
      omega
  have hmod : (b.size_ + 1) % SIZE_T_MOD = v.size_ + 1 := by
    rw [Nat.mod_eq_of_lt (by omega), fs]
  refine ⟨{ b with data_ := d, size_ := (b.size_ + 1) % SIZE_T_MOD }, ?_, hmod, fc, ?_, ?_,
    hb2, ?_, ?_⟩
  · simp only [Vector.PushBack, ha, hb, hd]
  · simp only [hmod]; omega
  · have := writeSlot_bufLen _ _ _ _ hd
    simp only [Vector.slots] at fsl ⊢
    omega
  · intro j hj
    simp only
    rw [readSlot_writeSlot_other _ _ _ _ _ hd (by omega)]
    exact flive j hj
  · simp only
    rw [← fs]
    exact readSlot_writeSlot_same _ _ _ _ hd

/-- Shape of the capacity `c` reached from the capacity `c0` by doubling. -/
theorem capShape_step (c0 a c : Nat)
    (ha : a = c0 ∨ a = max 1 (2 * c0))
    (hc : (0 < a → ∃ k, c = a * 2 ^ k) ∧ (a = 0 → c = 0 ∨ ∃ k, c = 2 ^ k)) :
    (0 < c0 → ∃ k, c = c0 * 2 ^ k) ∧ (c0 = 0 → c = 0 ∨ ∃ k, c = 2 ^ k) := by
  obtain ⟨hpos, hzero⟩ := hc
  constructor
  · intro h0
    rcases ha with ha | ha
    · subst ha; exact hpos h0
    · have ha2 : a = 2 * c0 := by omega
      obtain ⟨k, hk⟩ := hpos (by omega)
      exact ⟨k + 1, by rw [hk, ha2, pow_succ]; ring⟩
  · intro h0
    rcases ha with ha | ha
    · subst ha; exact hzero h0
    · have ha2 : a = 1 := by omega
      obtain ⟨k, hk⟩ := hpos (by omega)
      exact Or.inr ⟨k, by rw [hk, ha2, one_mul]⟩

/-- The data members after any normal return of a sequence of `PushBack(T&&)` calls. -/
theorem PushBackAll_fields [Element T] (xs : List T) :
    ∀ (v v1 : Vector T), v.size_ ≤ v.capacity_ → v.capacity_ < SIZE_T_MOD →
      (v.size_ + xs.length ≤ 2 ^ 63 ∨ v.size_ + xs.length ≤ v.capacity_) →
      v.PushBackAll xs = Except.ok v1 →
      v1.size_ = v.size_ + xs.length ∧ v1.size_ ≤ v1.capacity_ ∧
        ((0 < v.capacity_ → ∃ k, v1.capacity_ = v.capacity_ * 2 ^ k) ∧
          (v.capacity_ = 0 → v1.capacity_ = 0 ∨ ∃ k, v1.capacity_ = 2 ^ k)) ∧
        (v.size_ + xs.length ≤ v.capacity_ → v1.capacity_ = v.capacity_) := by
  induction xs with
  | nil =>
    intro v v1 hsz _ _ h
    simp only [Vector.PushBackAll] at h
    cases h
    refine ⟨rfl, hsz, ⟨fun _ => ⟨0, by simp⟩, fun h0 => Or.inl h0⟩, fun _ => rfl⟩
  | cons x xs ih =>
    intro v v1 hsz hcap hN h
    have hM : SIZE_T_MOD = 2 ^ 64 := rfl
    simp only [List.length_cons] at hN
    simp only [Vector.PushBackAll] at h
    split at h
    · cases h
    · rename_i a ha
      have hov : v.size_ = v.capacity_ → v.capacity_ * 2 < SIZE_T_MOD := by
        intro _; omega
      obtain ⟨fs, fc⟩ := PushBack_fields v a x hsz hcap hov ha
      have hcases : a.capacity_ = v.capacity_ ∨ a.capacity_ = max 1 (2 * v.capacity_) := by
        rw [fc]; split
        · exact Or.inl rfl
        · exact Or.inr rfl
      have hkeep : v.size_ < v.capacity_ → a.capacity_ = v.capacity_ := by
        intro hlt; rw [fc, if_pos hlt]
      have hsz1 : a.size_ ≤ a.capacity_ := by
        rw [fs, fc]; split <;> omega
      have hcap1 : a.capacity_ < SIZE_T_MOD := by
        rw [fc]; split
        · exact hcap
        · omega
      have hN1 : a.size_ + xs.length ≤ 2 ^ 63 ∨ a.size_ + xs.length ≤ a.capacity_ := by
        rcases hN with hN | hN
        · exact Or.inl (by omega)
        · exact Or.inr (by rw [hkeep (by omega)]; omega)
      obtain ⟨gs, gle, gshape, gkeep⟩ := ih a v1 hsz1 hcap1 hN1 h
      refine ⟨by simp only [List.length_cons]; omega, gle,
        capShape_step _ _ _ hcases gshape, ?_⟩
      intro hfit
      simp only [List.length_cons] at hfit
      have e := hkeep (by omega)
      rw [gkeep (by omega), e]

/-- The behaviour of a sequence of `PushBack(T&&)` calls. -/
theorem PushBackAll_spec [Element T] (xs : List T) :
    ∀ (v : Vector T), v.size_ ≤ v.capacity_ → v.slots = v.capacity_ →
      v.capacity_ < SIZE_T_MOD →
      (v.size_ + xs.length ≤ 2 ^ 63 ∨ v.size_ + xs.length ≤ v.capacity_) →
      ∃ v1, v.PushBackAll xs = Except.ok v1 ∧ v1.slots = v1.capacity_ ∧
        (∀ j, j < v.size_ → readSlot v1.data_ j = readSlot v.data_ j) ∧
        ∀ i y, xs[i]? = some y → readSlot v1.data_ (v.size_ + i) = Except.ok y := by
  induction xs with
  | nil =>
    intro v _ hbuf _ _
    refine ⟨v, rfl, hbuf, fun _ _ => rfl, ?_⟩
    intro i y h
    simp at h
  | cons x xs ih =>
    intro v hsz hbuf hcap hN
    have hM : SIZE_T_MOD = 2 ^ 64 := rfl
    simp only [List.length_cons] at hN
    have hov : v.size_ = v.capacity_ → v.capacity_ * 2 < SIZE_T_MOD := by
      intro _; omega
    obtain ⟨a, ha, fs, fc, fle, fsl, fcap, flive, flast⟩ := PushBack_spec v x hsz hbuf hcap hov
    have hN1 : a.size_ + xs.length ≤ 2 ^ 63 ∨ a.size_ + xs.length ≤ a.capacity_ := by
      rcases hN with hN | hN
      · exact Or.inl (by omega)
      · exact Or.inr (by rw [fc, if_pos (by omega)]; omega)
    obtain ⟨v1, h1, gsl, glive, gnew⟩ := ih a fle fsl fcap hN1
    refine ⟨v1, by simp only [Vector.PushBackAll, ha]; exact h1, gsl, ?_, ?_⟩
    · intro j hj
      rw [glive j (by omega), flive j hj]
    · intro i y hy
      cases i with
      | zero =>
        simp only [List.getElem?_cons_zero, Option.some.injEq] at hy
        subst hy
        rw [Nat.add_zero, glive _ (by omega)]
        exact flast
      | succ i =>
        simp only [List.getElem?_cons_succ] at hy
        have := gnew i y hy
        rw [fs] at this
        rw [← this]
        congr 1
        omega

/-! ## Claims on `PushBack` -/

/-- C1: starting from the default-constructed vector and calling `PushBack(T&&)`
with each of `N` values in turn (`N` at most `2 ^ 63`, so that doubling the
capacity stays inside `size_t`), every call returns normally and the result has
`Size() == N`, `Capacity() >= N` and, at every index `i < N`, the `i`-th value pushed. -/
theorem C1_pushback_sequence [Element T] (vals : List T) (hN : vals.length ≤ 2 ^ 63) :
    ∃ v, (Vector.ctor : Vector T).PushBackAll vals = Except.ok v ∧
      v.Size = vals.length ∧ v.Capacity ≥ vals.length ∧
      ∀ i (hi : i < vals.length), v.index i = Except.ok (vals[i]) := by
  have hM : SIZE_T_MOD = 2 ^ 64 := rfl
  have h0 : (Vector.ctor : Vector T).size_ = 0 := rfl
  have hc0 : (Vector.ctor : Vector T).capacity_ = 0 := rfl
  obtain ⟨v, hv, _, _, hnew⟩ := PushBackAll_spec vals (Vector.ctor : Vector T)
    (by rw [h0, hc0]) rfl (by rw [hc0, hM]; norm_num) (Or.inl (by rw [h0]; omega))
  obtain ⟨fs, fle, _, _⟩ := PushBackAll_fields vals (Vector.ctor : Vector T) v
    (by rw [h0, hc0]) (by rw [hc0, hM]; norm_num) (Or.inl (by rw [h0]; omega)) hv
  rw [h0, Nat.zero_add] at fs
  refine ⟨v, hv, fs, ?_, ?_⟩
  · show vals.length ≤ v.capacity_
    omega
  · intro i hi
    have := hnew i vals[i] (List.getElem?_eq_getElem hi)
    rw [h0, Nat.zero_add] at this
    exact this

/-- C1 at the values 7, 8, 9. -/
theorem C1_pushback_sequence_witness :
    [7, 8, 9].length ≤ 2 ^ 63 ∧
    ∃ v, (Vector.ctor : Vector Nat).PushBackAll [7, 8, 9] = Except.ok v ∧
      v.Size = [7, 8, 9].length ∧ v.Capacity ≥ [7, 8, 9].length ∧
      ∀ i (hi : i < [7, 8, 9].length), v.index i = Except.ok ([7, 8, 9][i]) :=
  ⟨by norm_num, C1_pushback_sequence [7, 8, 9] (by norm_num)⟩

/-- C2 (the code at the failing input): on the default-constructed vector
`PushBack(const T&)` starts by reading `data_[size_ - 1]`, which is index
`2 ^ 64 - 1` of a null block, so the call has undefined behaviour instead of
appending the value. -/
theorem C2_pushback_constref_empty :
    (Vector.ctor : Vector Nat).PushBackConstRef 5 = Except.error Fault.undefinedBehaviour ∧
    (Vector.ctor : Vector Nat).PushBack 5 = Except.ok ⟨1, 1, some [5]⟩ := by
  constructor <;> rfl

/-- C3: for a vector with `size_ <= capacity_` and `2 * capacity_` inside
`size_t`, every normal return of `PushBack(T&&)` leaves the capacity unchanged
when `size_ < capacity_` and sets it to `max(1, 2 * capacity_)` when
`size_ == capacity_`; and the call does return normally when the block has
`capacity_` slots. -/
theorem C3_pushback_growth [Element T] (v : Vector T) (x : T)
    (hsz : v.size_ ≤ v.capacity_) (hov : v.capacity_ * 2 < SIZE_T_MOD) :
    (∀ v1, v.PushBack x = Except.ok v1 →
      (v.size_ < v.capacity_ → v1.Capacity = v.Capacity) ∧
      (v.size_ = v.capacity_ → v1.Capacity = max 1 (2 * v.Capacity))) ∧
    (v.slots = v.capacity_ → ∃ v1, v.PushBack x = Except.ok v1) := by
  have hM : SIZE_T_MOD = 2 ^ 64 := rfl
  constructor
  · intro v1 h
    obtain ⟨_, fc⟩ := PushBack_fields v v1 x hsz (by omega) (fun _ => hov) h
    constructor
    · intro hlt
      show v1.capacity_ = v.capacity_
      rw [fc, if_pos hlt]
    · intro he
      show v1.capacity_ = max 1 (2 * v.capacity_)
      rw [fc, if_neg (by omega)]
  · intro hbuf
    obtain ⟨v1, h, _⟩ := PushBack_spec v x hsz hbuf (by omega) (fun _ => hov)
    exact ⟨v1, h⟩

/-- C3 at a full vector of capacity 2: the capacity becomes 4. -/
theorem C3_pushback_growth_witness :
    ((2 : Nat) ≤ 2 ∧ 2 * 2 < SIZE_T_MOD) ∧
    (⟨2, 2, some [1, 2]⟩ : Vector Nat).PushBack 3 = Except.ok ⟨3, 4, some [1, 2, 3, 0]⟩ ∧
    ((⟨2, 2, some [1, 2]⟩ : Vector Nat).size_ = (⟨2, 2, some [1, 2]⟩ : Vector Nat).capacity_ →
      (⟨3, 4, some [1, 2, 3, 0]⟩ : Vector Nat).Capacity
        = max 1 (2 * (⟨2, 2, some [1, 2]⟩ : Vector Nat).Capacity)) := by
  have hov : (2 : Nat) * 2 < SIZE_T_MOD := by show 2 * 2 < 2 ^ 64; norm_num
  have h := C3_pushback_growth (⟨2, 2, some [1, 2]⟩ : Vector Nat) 3 (by decide) hov
  exact ⟨⟨by decide, hov⟩, rfl, (h.1 ⟨3, 4, some [1, 2, 3, 0]⟩ rfl).2⟩

/-! ## The invariant `size_ <= capacity_` -/

/-- A normal return of `PushBack(const T&)` is a normal return of the code it
shares with `PushBack(T&&)`, run on the vector left by the probe of the last slot. -/
theorem PushBackConstRef_ok [Element T] (v r : Vector T) (x : T)
    (h : v.PushBackConstRef x = Except.ok r) :
    ∃ d, ({ v with data_ := d } : Vector T).PushBack x = Except.ok r ∧
      bufLen d = bufLen v.data_ ∧ 0 < bufLen v.data_ := by
  simp only [Vector.PushBackConstRef] at h
  split at h
  · cases h
  · rename_i tmp_old hread
    split at h
    · cases h
    · split at h
      · cases h
      · rename_i hcopy
        split at h
        · cases h
        · rename_i d1 hw1
          split at h
          · cases h
          · rename_i d2 hw2
            refine ⟨d2, ?_, ?_, ?_⟩
            · simp only [Vector.PushBack]
              split at h
              · cases h
              · exact h
            · rw [writeSlot_bufLen _ _ _ _ hw2, writeSlot_bufLen _ _ _ _ hw1]
            · cases hd : v.data_ with
              | none => rw [hd] at hw1; simp [writeSlot] at hw1
              | some buf =>
                rw [hd] at hw1
                simp only [writeSlot] at hw1
                split at hw1
                · simp only [bufLen]; omega
                · cases hw1

theorem Resize_fields [Element T] (v r : Vector T) (n : Nat)
    (hv : v.size_ ≤ v.capacity_) (h : v.Resize n = Except.ok r) :
    r.size_ = n ∧ r.size_ ≤ r.capacity_ ∧
      (n = 0 → r.capacity_ = 0 ∧ r.data_ = none) ∧
      (0 < n → r.capacity_ = max v.capacity_ n) := by
  simp only [Vector.Resize] at h
  split at h
  · cases h
    have : n = 0 := by omega
    subst this
    exact ⟨rfl, Nat.le_refl _, fun _ => ⟨rfl, rfl⟩, fun h0 => absurd h0 (by omega)⟩
  · split at h
    · cases h
      refine ⟨rfl, by simp only; omega, fun _ => by omega, fun _ => by simp only; omega⟩
    · split at h
      · cases h
      · rename_i v1 h1
        have hf : v1.size_ = v.size_ ∧ v1.capacity_ = max v.capacity_ n := by
          split at h1
          · obtain ⟨fs, fc, _⟩ := Reserve_fields v v1 n h1
            exact ⟨fs, fc⟩
          · cases h1
            exact ⟨rfl, by omega⟩
        split at h
        · cases h
        · cases h
          refine ⟨rfl, by simp only; omega, fun _ => by omega, fun _ => hf.2⟩

theorem ResizeValue_fields [Element T] (v r : Vector T) (n : Nat) (x : T)
    (hv : v.size_ ≤ v.capacity_) (h : v.ResizeValue n x = Except.ok r) :
    r.size_ = n ∧ r.size_ ≤ r.capacity_ := by
  simp only [Vector.ResizeValue] at h
  split at h
  · cases h
    have : n = 0 := by omega
    subst this
    exact ⟨rfl, Nat.le_refl _⟩
  · split at h
    · cases h
      exact ⟨rfl, by simp only; omega⟩
    · split at h
      · cases h
      · rename_i v1 h1
        have hf : v1.size_ = v.size_ ∧ v1.capacity_ = max v.capacity_ n := by
          split at h1
          · obtain ⟨fs, fc, _⟩ := Reserve_fields v v1 n h1
            exact ⟨fs, fc⟩
          · cases h1
            exact ⟨rfl, by omega⟩
        split at h
        · cases h
        · cases h
          exact ⟨rfl, by simp only; omega⟩

/-- C4: `size_ <= capacity_` holds for the result of every constructor and,
given it for the operands, for the result of every mutating member (move and
copy construction and assignment, `Swap`, both `Resize`, `ShrinkToFit`, `Clear`,
`Reserve`, both `PushBack`, `PopBack`) whenever `capacity_ * 2` stays inside `size_t`. -/
theorem C4_size_le_capacity [Element T] (v w : Vector T) (n : Nat) (x : T) (l : List T)
    (same : Bool) (hv : v.size_ ≤ v.capacity_) (hw : w.size_ ≤ w.capacity_)
    (hov : v.capacity_ * 2 < SIZE_T_MOD) :
    (Vector.ctor : Vector T).size_ ≤ (Vector.ctor : Vector T).capacity_ ∧
    (∀ r : Vector T, Vector.ctorSize n = Except.ok r → r.size_ ≤ r.capacity_) ∧
    (∀ r, Vector.ctorSizeValue n x = Except.ok r → r.size_ ≤ r.capacity_) ∧
    (∀ r, Vector.ctorList l = Except.ok r → r.size_ ≤ r.capacity_) ∧
    (∀ r, v.ctorCopy = Except.ok r → r.size_ ≤ r.capacity_) ∧
    ((v.ctorMove).1.size_ ≤ (v.ctorMove).1.capacity_ ∧
      (v.ctorMove).2.size_ ≤ (v.ctorMove).2.capacity_) ∧
    ((w.assignMove v same).1.size_ ≤ (w.assignMove v same).1.capacity_ ∧
      (w.assignMove v same).2.size_ ≤ (w.assignMove v same).2.capacity_) ∧
    (∀ r, w.assignCopy v same = Except.ok r → r.size_ ≤ r.capacity_) ∧
    ((v.Swap w).1.size_ ≤ (v.Swap w).1.capacity_ ∧
      (v.Swap w).2.size_ ≤ (v.Swap w).2.capacity_) ∧
    (∀ r, v.Resize n = Except.ok r → r.size_ ≤ r.capacity_) ∧
    (∀ r, v.ResizeValue n x = Except.ok r → r.size_ ≤ r.capacity_) ∧
    (∀ r, v.ShrinkToFit = Except.ok r → r.size_ ≤ r.capacity_) ∧
    (v.Clear).size_ ≤ (v.Clear).capacity_ ∧
    (∀ r, v.Reserve n = Except.ok r → r.size_ ≤ r.capacity_) ∧
    (∀ r, v.PushBackConstRef x = Except.ok r → r.size_ ≤ r.capacity_) ∧
    (∀ r, v.PushBack x = Except.ok r → r.size_ ≤ r.capacity_) ∧
    (v.PopBack).2.size_ ≤ (v.PopBack).2.capacity_ := by
  have hM : SIZE_T_MOD = 2 ^ 64 := rfl
  refine ⟨Nat.le_refl _, ?_, ?_, ?_, ?_, ⟨hv, Nat.le_refl _⟩, ?_, ?_, ⟨hw, hv⟩, ?_, ?_, ?_,
    Nat.zero_le _, ?_, ?_, ?_, ?_⟩
  · intro r h
    simp only [Vector.ctorSize] at h
    split at h
    · split at h
      · cases h
      · cases h; exact Nat.le_refl _
    · cases h; exact Nat.le_refl _
  · intro r h
    simp only [Vector.ctorSizeValue] at h
    split at h
    · split at h
      · cases h
      · split at h
        · cases h
        · cases h; exact Nat.le_refl _
    · cases h; exact Nat.zero_le _
  · intro r h
    simp only [Vector.ctorList] at h
    split at h
    · split at h
      · cases h
      · cases h; exact Nat.le_refl _
    · cases h; exact Nat.le_refl _
  · intro r h
    simp only [Vector.ctorCopy] at h
    split at h
    · split at h
      · cases h
      · cases h; exact hv
    · cases h; exact hv
  · cases same
    · exact ⟨hv, Nat.le_refl _⟩
    · exact ⟨hw, hv⟩
  · intro r h
    cases same
    · simp only [Vector.assignCopy, Bool.not_false, if_true] at h
      split at h
      · cases h
      · cases h; exact hv
    · simp only [Vector.assignCopy, Bool.not_true, Bool.false_eq_true, if_false] at h
      cases h; exact hw
  · intro r h
    exact (Resize_fields v r n hv h).2.1
  · intro r h
    exact (ResizeValue_fields v r n x hv h).2
  · intro r h
    simp only [Vector.ShrinkToFit] at h
    split at h
    · split at h
      · cases h
      · cases h; exact Nat.le_refl _
    · cases h; exact hv
  · intro r h
    obtain ⟨fs, fc, _⟩ := Reserve_fields v r n h
    omega
  · intro r h
    obtain ⟨d, hd, _⟩ := PushBackConstRef_ok v r x h
    have fields := PushBack_fields ({ v with data_ := d } : Vector T) r x hv
      (by show v.capacity_ < _; omega) (fun _ => hov) hd
    obtain ⟨fs, fc⟩ := fields
    simp only at fs fc
    rw [fs, fc]
    split <;> omega
  · intro r h
    obtain ⟨fs, fc⟩ := PushBack_fields v r x hv (by omega) (fun _ => hov) h
    rw [fs, fc]
    split <;> omega
  · simp only [Vector.PopBack]
    split
    · exact hv
    · simp only; omega

/-- C4 at a vector of size 1 and capacity 2 (with the empty vector as second operand). -/
theorem C4_size_le_capacity_witness :
    ((1 : Nat) ≤ 2 ∧ (0 : Nat) ≤ 0 ∧ 2 * 2 < SIZE_T_MOD) ∧
    (∀ r, (⟨1, 2, some [5, 0]⟩ : Vector Nat).PushBack 7 = Except.ok r →
      r.size_ ≤ r.capacity_) ∧
    (⟨1, 2, some [5, 0]⟩ : Vector Nat).PushBack 7 = Except.ok ⟨2, 2, some [5, 7]⟩ := by
  have hov : (2 : Nat) * 2 < SIZE_T_MOD := by show 2 * 2 < 2 ^ 64; norm_num
  have h := C4_size_le_capacity (⟨1, 2, some [5, 0]⟩ : Vector Nat) ⟨0, 0, none⟩ 3 7 [1, 2]
    false (by decide) (by decide) hov
  exact ⟨⟨by decide, by decide, hov⟩, h.2.2.2.2.2.2.2.2.2.2.2.2.2.2.2.1, rfl⟩

/-! ## Copy and move -/

/-- C5 (the code at the failing input): copying a vector of size 1 and capacity 4
gives a vector that reports capacity 4 and owns a block of 1 slot, by copy
construction and by copy assignment alike; copying an empty vector of capacity 4
gives capacity 4 and no block at all. -/
theorem C5_copy_capacity_exceeds_buffer :
    (Vector.ctorList [1] : Except (Fault Nat) (Vector Nat)) = Except.ok ⟨1, 1, some [1]⟩ ∧
    (⟨1, 1, some [1]⟩ : Vector Nat).Reserve 4 = Except.ok ⟨1, 4, some [1, 0, 0, 0]⟩ ∧
    (⟨1, 4, some [1, 0, 0, 0]⟩ : Vector Nat).ctorCopy = Except.ok ⟨1, 4, some [1]⟩ ∧
    (Vector.ctor : Vector Nat).assignCopy ⟨1, 4, some [1, 0, 0, 0]⟩ false
      = Except.ok ⟨1, 4, some [1]⟩ ∧
    (⟨1, 4, some [1]⟩ : Vector Nat).Capacity = 4 ∧
    (⟨1, 4, some [1]⟩ : Vector Nat).slots = 1 ∧
    (Vector.Clear ⟨1, 4, some [1, 0, 0, 0]⟩ : Vector Nat).ctorCopy = Except.ok ⟨0, 4, none⟩ := by
  refine ⟨rfl, rfl, rfl, rfl, rfl, rfl, rfl⟩

/-- C6 (the code at the failing input): the copy `b` of a vector `a` of size 1
and capacity 4 compares equal to `a`, but `b.PushBack` writes `data_[1]` of a
block of 1 slot: the mutation of the copy is an out-of-bounds write, while the
same call on `a` itself is fine. -/
theorem C6_copy_then_pushback_out_of_bounds :
    (⟨1, 4, some [1, 0, 0, 0]⟩ : Vector Nat).ctorCopy = Except.ok ⟨1, 4, some [1]⟩ ∧
    (⟨1, 4, some [1, 0, 0, 0]⟩ : Vector Nat).opEq ⟨1, 4, some [1]⟩ = Except.ok true ∧
    (⟨1, 4, some [1]⟩ : Vector Nat).PushBack 2 = Except.error Fault.undefinedBehaviour ∧
    (⟨1, 4, some [1]⟩ : Vector Nat).Resize 3 = Except.error Fault.undefinedBehaviour ∧
    (⟨1, 4, some [1, 0, 0, 0]⟩ : Vector Nat).PushBack 2
      = Except.ok ⟨2, 4, some [1, 2, 0, 0]⟩ := by
  refine ⟨rfl, rfl, rfl, rfl, rfl⟩

/-- C7: move construction gives the new vector exactly the size, capacity and
block of the source and leaves the source with `size_ == 0`, `capacity_ == 0`
and no block; move assignment from a distinct object does the same. -/
theorem C7_move_transfers_and_resets (a b : Vector T) :
    (a.ctorMove).1 = a ∧ (a.ctorMove).2 = ⟨0, 0, none⟩ ∧
    (b.assignMove a false).1 = a ∧ (b.assignMove a false).2 = ⟨0, 0, none⟩ := by
  refine ⟨rfl, rfl, rfl, rfl⟩

/-! ## `Reserve` and `Resize` -/

/-- C8: on a vector with `size_ <= capacity_` whose block has `capacity_` slots,
`Reserve(n)` returns normally with `Capacity() >= n`, the same size and the same
element at every index below the size; for `n <= capacity_` the vector is
unchanged, and for `n > capacity_` the new capacity is `n`. -/
theorem C8_reserve [Element T] (v : Vector T) (n : Nat)
    (hsz : v.size_ ≤ v.capacity_) (hbuf : v.slots = v.capacity_) :
    ∃ r, v.Reserve n = Except.ok r ∧ r.Capacity ≥ n ∧ r.Size = v.Size ∧
      (∀ j, j < v.Size → r.index j = v.index j) ∧
      (n ≤ v.Capacity → r = v) ∧ (n > v.Capacity → r.Capacity = n) := by
  obtain ⟨r, h, fs, fc, _, fno, flive⟩ := Reserve_spec v n hsz hbuf
  refine ⟨r, h, ?_, fs, flive, fno, ?_⟩
  · show n ≤ r.capacity_
    omega
  · intro hgt
    have : v.capacity_ < n := hgt
    show r.capacity_ = n
    omega

/-- C8 at a full vector of two elements and `n = 5`. -/
theorem C8_reserve_witness :
    ((2 : Nat) ≤ 2 ∧ (⟨2, 2, some [4, 9]⟩ : Vector Nat).slots = 2) ∧
    ∃ r, (⟨2, 2, some [4, 9]⟩ : Vector Nat).Reserve 5 = Except.ok r ∧ r.Capacity ≥ 5 ∧
      r.Size = (⟨2, 2, some [4, 9]⟩ : Vector Nat).Size ∧
      (∀ j, j < (⟨2, 2, some [4, 9]⟩ : Vector Nat).Size →
        r.index j = (⟨2, 2, some [4, 9]⟩ : Vector Nat).index j) ∧
      (5 ≤ (⟨2, 2, some [4, 9]⟩ : Vector Nat).Capacity → r = ⟨2, 2, some [4, 9]⟩) ∧
      (5 > (⟨2, 2, some [4, 9]⟩ : Vector Nat).Capacity → r.Capacity = 5) :=
  ⟨⟨by decide, rfl⟩, C8_reserve ⟨2, 2, some [4, 9]⟩ 5 (by decide) rfl⟩

/-- C9 (the code on every input): `Reserve(0)` returns at its first test,
`new_cap == capacity_ || new_cap < capacity_`, and leaves the vector as it was;
the branch `new_cap == 0` that releases the block is never reached.  For the
vector holding 1, 2, 3 the size and capacity stay 3. -/
theorem C9_reserve_zero_is_noop [Element T] (v : Vector T) :
    v.Reserve 0 = Except.ok v ∧
    (⟨3, 3, some [1, 2, 3]⟩ : Vector Nat).Reserve 0 = Except.ok ⟨3, 3, some [1, 2, 3]⟩ :=
  ⟨Reserve_noop v 0 (Nat.zero_le _), rfl⟩

/-- A store loop whose range lies inside the block returns normally, keeps the
slots below the range and leaves in slot `j` of the range the value assigned at
iteration `j - i`. -/
theorem storeLoop_spec (next : T → T) (d : Option (List T)) (i k : Nat) (x : T)
    (h : i + k ≤ bufLen d) :
    ∃ r, storeLoop next i k x d = Except.ok r ∧ bufLen r = bufLen d ∧
      (∀ j, j < i → readSlot r j = readSlot d j) ∧
      (∀ j, i ≤ j → j < i + k → readSlot r j = Except.ok (next^[j - i] x)) := by
  cases d with
  | none =>
    have hk : k = 0 := by simp only [bufLen] at h; omega
    subst hk
    exact ⟨none, rfl, rfl, fun _ _ => rfl, fun j h1 h2 => absurd h2 (by omega)⟩
  | some buf =>
    obtain ⟨r, hr, hlen, hget⟩ := storeLoop_ok next k i x buf (by simpa [bufLen] using h)
    refine ⟨some r, hr, by simp only [bufLen, hlen], ?_, ?_⟩
    · intro j hj
      have : ¬ (i ≤ j ∧ j < i + k) := by omega
      simp only [readSlot, hget j, this, if_false]
    · intro j h1 h2
      have : i ≤ j ∧ j < i + k := ⟨h1, h2⟩
      simp only [readSlot, hget j, this, and_self, if_true]

theorem iterate_const_init (c : T) (m : Nat) : (fun _ : T => c)^[m] c = c :=
  Function.iterate_fixed rfl m

/-- C10: on a vector with `size_ <= capacity_` whose block has `capacity_` slots,
`Resize(n)` returns normally with `Size() == n`; for `n == 0` the capacity is 0
and `Empty()` holds; for `0 < n <= size_` the capacity and the first `n` elements
are unchanged; for `n > size_` the elements below the old size are unchanged,
every element at an index in `[size_, n)` is `T()`, and the capacity is
`max(capacity_, n)`. -/
theorem C10_resize [Element T] (v : Vector T) (n : Nat)
    (hsz : v.size_ ≤ v.capacity_) (hbuf : v.slots = v.capacity_) :
    ∃ r, v.Resize n = Except.ok r ∧ r.Size = n ∧
      (n = 0 → r.Capacity = 0 ∧ r.Empty = true) ∧
      (0 < n → n ≤ v.Size →
        r.Capacity = v.Capacity ∧ ∀ j, j < n → r.index j = v.index j) ∧
      (n > v.Size →
        (∀ j, j < v.Size → r.index j = v.index j) ∧
        (∀ j, v.Size ≤ j → j < n → r.index j = Except.ok Element.init) ∧
        r.Capacity = max v.Capacity n) := by
  by_cases h0 : n = 0
  · subst h0
    refine ⟨⟨0, 0, none⟩, by simp [Vector.Resize], rfl, fun _ => ⟨rfl, rfl⟩,
      fun h => absurd h (by omega), fun h => absurd h (Nat.not_lt_zero _)⟩
  · have hn0 : ¬ n ≤ 0 := by omega
    by_cases hle : n ≤ v.size_
    · refine ⟨{ v with size_ := n }, by simp only [Vector.Resize, hn0, hle, if_false, if_true],
        rfl, fun h => absurd h h0, fun _ _ => ⟨rfl, fun _ _ => rfl⟩, ?_⟩
      intro hgt
      have : v.size_ < n := hgt
      omega
    · obtain ⟨v1, h1, fs, fc, fsl, _, flive⟩ := Reserve_spec v n hsz hbuf
      have hv1 : (if n > v.capacity_ then v.Reserve n else Except.ok v) = Except.ok v1 := by
        by_cases hg : n > v.capacity_
        · simp only [hg, if_true]; exact h1
        · simp only [hg, if_false]
          rw [Reserve_noop v n (by omega)] at h1
          exact h1
      obtain ⟨d, hd, _, dlow, dnew⟩ := storeLoop_spec (fun _ => (Element.init : T)) v1.data_
        v1.size_ (n - v1.size_) Element.init (by
          have : v1.slots = bufLen v1.data_ := rfl
          omega)
      refine ⟨{ v1 with data_ := d, size_ := n }, ?_, rfl, fun h => absurd h h0,
        fun _ h => absurd h hle, ?_⟩
      · simp only [Vector.Resize, hn0, hle, if_false, hv1, hd]
      · intro _
        refine ⟨?_, ?_, ?_⟩
        · intro j hj
          have hj2 : j < v.size_ := hj
          show readSlot d j = readSlot v.data_ j
          rw [dlow j (by omega), flive j hj2]
        · intro j h1 h2
          have h3 : v.size_ ≤ j := h1
          show readSlot d j = Except.ok Element.init
          rw [dnew j (by omega) (by omega), iterate_const_init]
        · exact fc

/-- C10 at a vector of size 1 and capacity 2, resized to 4. -/
theorem C10_resize_witness :
    ((1 : Nat) ≤ 2 ∧ (⟨1, 2, some [6, 8]⟩ : Vector Nat).slots = 2) ∧
    (⟨1, 2, some [6, 8]⟩ : Vector Nat).Resize 4 = Except.ok ⟨4, 4, some [6, 0, 0, 0]⟩ ∧
    ∃ r, (⟨1, 2, some [6, 8]⟩ : Vector Nat).Resize 4 = Except.ok r ∧ r.Size = 4 := by
  obtain ⟨r, h, hs, _⟩ := C10_resize (⟨1, 2, some [6, 8]⟩ : Vector Nat) 4 (by decide) rfl
  exact ⟨⟨by decide, rfl⟩, rfl, r, h, hs⟩

/-- C11 (the code at the failing input): for an element type whose moved-from
state is null, `Resize(3, value)` on the empty vector assigns `std::move(value)`
three times: slot 0 receives the value and slots 1 and 2 receive the moved-from
state, not copies of the value. -/
theorem C11_resize_value_moves_repeatedly :
    (Vector.ctor : Vector (Option Nat)).ResizeValue 3 (some 7)
      = Except.ok ⟨3, 3, some [some 7, none, none]⟩ ∧
    (⟨3, 3, some [some 7, none, none]⟩ : Vector (Option Nat)).index 1 = Except.ok none ∧
    (⟨3, 3, some [some 7, none, none]⟩ : Vector (Option Nat)).index 1 ≠ Except.ok (some 7) := by
  refine ⟨rfl, rfl, ?_⟩
  intro h
  cases h

/-! ## `ShrinkToFit`, `PopBack`, `At` -/

/-- A move loop from index 0 whose range lies inside both blocks returns
normally with the moved elements in place. -/
theorem moveLoop_spec (src dst : Option (List T)) (k : Nat)
    (hs : k ≤ bufLen src) (hd : k ≤ bufLen dst) :
    ∃ r, moveLoop src 0 k dst = Except.ok r ∧ bufLen r = bufLen dst ∧
      ∀ j, j < k → readSlot r j = readSlot src j := by
  by_cases hk : k = 0
  · subst hk
    exact ⟨dst, rfl, rfl, fun j hj => absurd hj (Nat.not_lt_zero _)⟩
  · cases src with
    | none => simp only [bufLen] at hs; omega
    | some sbuf =>
      cases dst with
      | none => simp only [bufLen] at hd; omega
      | some dbuf =>
        simp only [bufLen] at hs hd
        obtain ⟨r, hr, hlen, hget⟩ := moveLoop_ok sbuf k 0 dbuf (by omega) (by omega)
        refine ⟨some r, hr, by simp only [bufLen, hlen], ?_⟩
        intro j hj
        have : 0 ≤ j ∧ j < 0 + k := by omega
        simp only [readSlot, hget j, this, and_self, if_true]

/-- C12: on a vector with `size_ <= capacity_` whose live elements lie inside
its block (and that has no block when its capacity is 0), `ShrinkToFit()`
returns normally with `capacity_ == size_`, the same size and the same element
at every index below the size, and with no block when the size is 0; a vector
with `capacity_ == size_` beforehand is unchanged. -/
theorem C12_shrink_to_fit [Element T] (v : Vector T)
    (hsz : v.size_ ≤ v.capacity_) (hbuf : v.size_ ≤ v.slots)
    (hnull : v.capacity_ = 0 → v.data_ = none) :
    ∃ r, v.ShrinkToFit = Except.ok r ∧ r.Capacity = r.Size ∧ r.Size = v.Size ∧
      (∀ j, j < v.Size → r.index j = v.index j) ∧
      (r.Size = 0 → r.data_ = none) ∧
      (v.Capacity = v.Size → r = v) := by
  by_cases hgt : v.capacity_ > v.size_
  · by_cases h0 : v.size_ = 0
    · refine ⟨{ v with data_ := none, capacity_ := v.size_ }, ?_, rfl, rfl, ?_,
        fun _ => rfl, ?_⟩
      · have hpos : v.capacity_ > 0 := by omega
        simp only [Vector.ShrinkToFit, h0, hpos, if_true, ne_eq, not_true_eq_false, if_false,
          moveLoop]
      · intro j hj
        have : j < v.size_ := hj
        omega
      · intro he
        have : v.capacity_ = v.size_ := he
        omega
    · obtain ⟨d, hd, hlen, hget⟩ := moveLoop_spec v.data_ (some (newArray v.size_)) v.size_
        hbuf (by rw [bufLen_newArray])
      refine ⟨{ v with data_ := d, capacity_ := v.size_ }, ?_, rfl, rfl, ?_, ?_, ?_⟩
      · simp only [Vector.ShrinkToFit, hgt, if_true, h0, ne_eq, not_false_eq_true, hd]
      · intro j hj
        exact hget j hj
      · intro hr
        have : v.size_ = 0 := hr
        omega
      · intro he
        have : v.capacity_ = v.size_ := he
        omega
  · have he : v.capacity_ = v.size_ := by omega
    refine ⟨v, by simp only [Vector.ShrinkToFit, hgt, if_false], he, rfl, fun _ _ => rfl, ?_,
      fun _ => rfl⟩
    intro hr
    have : v.size_ = 0 := hr
    exact hnull (by omega)

/-- C12 at a vector of size 2 and capacity 4. -/
theorem C12_shrink_to_fit_witness :
    ((2 : Nat) ≤ 4 ∧ 2 ≤ (⟨2, 4, some [3, 5, 0, 0]⟩ : Vector Nat).slots ∧
      ((4 : Nat) = 0 → (some [3, 5, 0, 0] : Option (List Nat)) = none)) ∧
    (⟨2, 4, some [3, 5, 0, 0]⟩ : Vector Nat).ShrinkToFit = Except.ok ⟨2, 2, some [3, 5]⟩ ∧
    ∃ r, (⟨2, 4, some [3, 5, 0, 0]⟩ : Vector Nat).ShrinkToFit = Except.ok r ∧
      r.Capacity = r.Size := by
  obtain ⟨r, h, hc, _⟩ := C12_shrink_to_fit (⟨2, 4, some [3, 5, 0, 0]⟩ : Vector Nat)
    (by decide) (by decide) (by decide)
  exact ⟨⟨by decide, by decide, by decide⟩, rfl, r, h, hc⟩

/-- C13: `PopBack()` on an empty vector returns `false` and leaves the size 0; on
a vector of size `k > 0` it returns `true` and leaves the size `k - 1`; in both
cases the capacity and the block, hence every element below the new size, are
unchanged. -/
theorem C13_pop_back (v : Vector T) :
    (v.Size = 0 → (v.PopBack).1 = false ∧ (v.PopBack).2.Size = 0) ∧
    (∀ k, 0 < k → v.Size = k → (v.PopBack).1 = true ∧ (v.PopBack).2.Size = k - 1) ∧
    (v.PopBack).2.Capacity = v.Capacity ∧
    (v.PopBack).2.data_ = v.data_ ∧
    (∀ j, j < (v.PopBack).2.Size → (v.PopBack).2.index j = v.index j) := by
  by_cases h0 : v.size_ = 0
  · have hp : v.PopBack = (false, v) := by simp [Vector.PopBack, Vector.Empty, h0]
    rw [hp]
    refine ⟨fun _ => ⟨rfl, h0⟩, ?_, rfl, rfl, fun _ _ => rfl⟩
    intro k hk he
    have : v.size_ = k := he
    omega
  · have hp : v.PopBack = (true, { v with size_ := v.size_ - 1 }) := by
      simp [Vector.PopBack, Vector.Empty, h0]
    rw [hp]
    refine ⟨fun h => absurd h h0, ?_, rfl, rfl, fun _ _ => rfl⟩
    intro k _ he
    have : v.size_ = k := he
    subst this
    exact ⟨rfl, rfl⟩

/-- C14: `At(idx)` throws `std::out_of_range` exactly when `idx >= Size()`, and
for `idx < Size()` returns what `operator[]` returns at `idx`; the embedding of
`At` is a function of the vector alone, which it does not modify. -/
theorem C14_at (v : Vector T) (idx : Nat) :
    (v.At idx = Except.error Fault.out_of_range ↔ idx ≥ v.Size) ∧
    (idx < v.Size → v.At idx = v.index idx) := by
  constructor
  · constructor
    · intro h
      by_contra hlt
      have hlt2 : ¬ idx ≥ v.size_ := hlt
      simp only [Vector.At, hlt2, if_false] at h
      cases hd : v.data_ with
      | none => rw [hd] at h; simp [readSlot] at h
      | some buf =>
        rw [hd] at h
        simp only [readSlot] at h
        split at h <;> cases h
    · intro h
      have h2 : idx ≥ v.size_ := h
      simp only [Vector.At, h2, if_true]
  · intro h
    have h2 : ¬ idx ≥ v.size_ := by
      have : idx < v.size_ := h
      omega
    simp only [Vector.At, h2, if_false, Vector.index]

/-! ## Comparison operators -/

theorem readSlot_ok_of_lt (d : Option (List T)) (i : Nat) (h : i < bufLen d) :
    ∃ x, readSlot d i = Except.ok x := by
  cases d with
  | none => simp [bufLen] at h
  | some buf =>
    have hi : i < buf.length := by simpa [bufLen] using h
    exact ⟨buf[i], readSlot_some buf i hi⟩

/-- The result of `std::equal` on two ranges that lie inside their blocks. -/
theorem equalLoop_spec [DecidableEq T] (a b : Option (List T)) :
    ∀ (k i : Nat), i + k ≤ bufLen a → i + k ≤ bufLen b →
      ∃ r, equalLoop a b i k = Except.ok r ∧
        (r = true ↔ ∀ j, i ≤ j → j < i + k → readSlot a j = readSlot b j) := by
  intro k
  induction k with
  | zero =>
    intro i _ _
    exact ⟨true, rfl, by simp only [true_iff]; intro j h1 h2; omega⟩
  | succ k ih =>
    intro i ha hb
    obtain ⟨x, hx⟩ := readSlot_ok_of_lt a i (by omega)
    obtain ⟨y, hy⟩ := readSlot_ok_of_lt b i (by omega)
    by_cases hxy : x = y
    · obtain ⟨r, hr, hiff⟩ := ih (i + 1) (by omega) (by omega)
      refine ⟨r, by simp only [equalLoop, hx, hy, hxy, if_true]; exact hr, ?_⟩
      rw [hiff]
      constructor
      · intro h j h1 h2
        by_cases hj : j = i
        · subst hj; rw [hx, hy, hxy]
        · exact h j (by omega) (by omega)
      · intro h j h1 h2
        exact h j (by omega) (by omega)
    · refine ⟨false, by simp only [equalLoop, hx, hy, hxy, if_false], ?_⟩
      constructor
      · intro h; cases h
      · intro h
        have := h i (Nat.le_refl _) (by omega)
        rw [hx, hy] at this
        cases this
        exact absurd rfl hxy

/-- The result of `std::lexicographical_compare` on two ranges that lie inside
their blocks: `true` exactly when, after a common prefix of some length `m`,
the first range ends and the second does not, or both continue and the next
element of the first is smaller. -/
theorem lexLoop_spec [LinearOrder T] (a b : Option (List T)) :
    ∀ (k1 k2 i : Nat), i + k1 ≤ bufLen a → i + k2 ≤ bufLen b →
      ∃ r, lexLoop a b i k1 k2 = Except.ok r ∧
        (r = true ↔ ∃ m, m ≤ k1 ∧ m ≤ k2 ∧
          (∀ j, i ≤ j → j < i + m → readSlot a j = readSlot b j) ∧
          ((m = k1 ∧ m < k2) ∨
            (m < k1 ∧ m < k2 ∧ ∃ p q, readSlot a (i + m) = Except.ok p ∧
              readSlot b (i + m) = Except.ok q ∧ p < q))) := by
  intro k1
  induction k1 with
  | zero =>
    intro k2 i _ _
    refine ⟨decide (k2 ≠ 0), rfl, ?_⟩
    simp only [decide_eq_true_eq]
    constructor
    · intro h
      exact ⟨0, Nat.le_refl _, Nat.zero_le _, fun j h1 h2 => absurd h2 (by omega),
        Or.inl ⟨rfl, by omega⟩⟩
    · rintro ⟨m, h1, _, _, h4 | h4⟩ <;> omega
  | succ k1 ih =>
    intro k2 i ha hb
    cases k2 with
    | zero =>
      refine ⟨false, rfl, ?_⟩
      constructor
      · intro h; cases h
      · rintro ⟨m, _, h2, _, h4 | h4⟩ <;> omega
    | succ k2 =>
      obtain ⟨x, hx⟩ := readSlot_ok_of_lt a i (by omega)
      obtain ⟨y, hy⟩ := readSlot_ok_of_lt b i (by omega)
      by_cases hlt : x < y
      · refine ⟨true, by simp only [lexLoop, hx, hy, hlt, if_true], ?_⟩
        simp only [true_iff]
        exact ⟨0, Nat.zero_le _, Nat.zero_le _, fun j h1 h2 => absurd h2 (by omega),
          Or.inr ⟨Nat.succ_pos _, Nat.succ_pos _, x, y, hx, hy, hlt⟩⟩
      · by_cases hgt : y < x
        · refine ⟨false, by simp only [lexLoop, hx, hy, hlt, hgt, if_false, if_true], ?_⟩
          constructor
          · intro h; cases h
          · rintro ⟨m, _, _, hpre, h4⟩
            exfalso
            cases m with
            | zero =>
              rcases h4 with h4 | ⟨_, _, p, q, hp, hq, hpq⟩
              · omega
              · rw [Nat.add_zero, hx] at hp
                rw [Nat.add_zero, hy] at hq
                cases hp; cases hq
                exact hlt hpq
            | succ m =>
              have := hpre i (Nat.le_refl _) (by omega)
              rw [hx, hy] at this
              cases this
              exact lt_irrefl _ hgt
        · have hxy : x = y := le_antisymm (not_lt.mp hgt) (not_lt.mp hlt)
          obtain ⟨r, hr, hiff⟩ := ih k2 (i + 1) (by omega) (by omega)
          refine ⟨r, by simp only [lexLoop, hx, hy, hlt, hgt, if_false]; exact hr, ?_⟩
          rw [hiff]
          constructor
          · rintro ⟨m, h1, h2, hpre, h4⟩
            refine ⟨m + 1, by omega, by omega, ?_, ?_⟩
            · intro j hj1 hj2
              by_cases hj : j = i
              · subst hj; rw [hx, hy, hxy]
              · exact hpre j (by omega) (by omega)
            · rcases h4 with h4 | ⟨h5, h6, p, q, hp, hq, hpq⟩
              · exact Or.inl (by omega)
              · refine Or.inr ⟨by omega, by omega, p, q, ?_, ?_, hpq⟩
                · rw [← hp]; congr 1; omega
                · rw [← hq]; congr 1; omega
          · rintro ⟨m, h1, h2, hpre, h4⟩
            cases m with
            | zero =>
              exfalso
              rcases h4 with h4 | ⟨_, _, p, q, hp, hq, hpq⟩
              · omega
              · rw [Nat.add_zero, hx] at hp
                rw [Nat.add_zero, hy] at hq
                cases hp; cases hq
                exact hlt hpq
            | succ m =>
              refine ⟨m, by omega, by omega, fun j hj1 hj2 => hpre j (by omega) (by omega), ?_⟩
              rcases h4 with h4 | ⟨h5, h6, p, q, hp, hq, hpq⟩
              · exact Or.inl (by omega)
              · refine Or.inr ⟨by omega, by omega, p, q, ?_, ?_, hpq⟩
                · rw [← hp]; congr 1; omega
                · rw [← hq]; congr 1; omega

/-- C15: for vectors over a totally ordered element type whose live elements lie
inside their blocks, `x == y` is true exactly when the sizes are equal and the
elements are equal at every index; `x < y` is true exactly when, after a common
prefix of some length `m`, either `x` ends and `y` does not or the element of
`x` at `m` is smaller than that of `y`; `x > y` is `y < x`.  In particular
`[1,2] < [1,2,3]` and `[1,3] > [1,2,3]`. -/
theorem C15_comparisons [LinearOrder T] (x y : Vector T)
    (hx : x.size_ ≤ x.slots) (hy : y.size_ ≤ y.slots) :
    (∃ r, x.opEq y = Except.ok r ∧
      (r = true ↔ x.Size = y.Size ∧ ∀ i, i < x.Size → x.index i = y.index i)) ∧
    (∃ r, x.opLt y = Except.ok r ∧
      (r = true ↔ ∃ m, m ≤ x.Size ∧ m ≤ y.Size ∧
        (∀ j, j < m → x.index j = y.index j) ∧
        ((m = x.Size ∧ m < y.Size) ∨
          (m < x.Size ∧ m < y.Size ∧ ∃ p q, x.index m = Except.ok p ∧
            y.index m = Except.ok q ∧ p < q)))) ∧
    x.opGt y = y.opLt x ∧
    (⟨2, 2, some [1, 2]⟩ : Vector Nat).opLt ⟨3, 3, some [1, 2, 3]⟩ = Except.ok true ∧
    (⟨2, 2, some [1, 3]⟩ : Vector Nat).opGt ⟨3, 3, some [1, 2, 3]⟩ = Except.ok true := by
  refine ⟨?_, ?_, rfl, rfl, rfl⟩
  · by_cases hs : x.size_ = y.size_
    · obtain ⟨r, hr, hiff⟩ := equalLoop_spec x.data_ y.data_ x.size_ 0
        (by have : x.slots = bufLen x.data_ := rfl; omega)
        (by have : y.slots = bufLen y.data_ := rfl; omega)
      refine ⟨r, ?_, ?_⟩
      · simp only [Vector.opEq, hs, ne_eq, not_true_eq_false, if_false]
        rw [← hs]; exact hr
      · rw [hiff]
        constructor
        · intro h
          exact ⟨hs, fun i hi => h i (Nat.zero_le _) (by have : i < x.size_ := hi; omega)⟩
        · intro h j _ h2
          exact h.2 j (by show j < x.size_; omega)
    · refine ⟨false, by simp only [Vector.opEq, ne_eq, hs, not_false_eq_true, if_true], ?_⟩
      constructor
      · intro h; cases h
      · intro h; exact absurd h.1 hs
  · obtain ⟨r, hr, hiff⟩ := lexLoop_spec x.data_ y.data_ x.size_ y.size_ 0
      (by have : x.slots = bufLen x.data_ := rfl; omega)
      (by have : y.slots = bufLen y.data_ := rfl; omega)
    refine ⟨r, hr, ?_⟩
    rw [hiff]
    constructor
    · rintro ⟨m, h1, h2, hpre, h4⟩
      refine ⟨m, h1, h2, fun j hj => hpre j (Nat.zero_le _) (by omega), ?_⟩
      rw [Nat.zero_add] at h4
      exact h4
    · rintro ⟨m, h1, h2, hpre, h4⟩
      refine ⟨m, h1, h2, fun j _ hj => hpre j (by omega), ?_⟩
      rw [Nat.zero_add]
      exact h4

/-- C15 at the vectors `[1,2]` and `[1,2,3]`. -/
theorem C15_comparisons_witness :
    ((2 : Nat) ≤ (⟨2, 2, some [1, 2]⟩ : Vector Nat).slots ∧
      (3 : Nat) ≤ (⟨3, 3, some [1, 2, 3]⟩ : Vector Nat).slots) ∧
    (⟨2, 2, some [1, 2]⟩ : Vector Nat).opGt ⟨3, 3, some [1, 2, 3]⟩
      = (⟨3, 3, some [1, 2, 3]⟩ : Vector Nat).opLt ⟨2, 2, some [1, 2]⟩ ∧
    (⟨2, 2, some [1, 2]⟩ : Vector Nat).opEq ⟨3, 3, some [1, 2, 3]⟩ = Except.ok false :=
  ⟨⟨by decide, by decide⟩,
    (C15_comparisons (⟨2, 2, some [1, 2]⟩ : Vector Nat) ⟨3, 3, some [1, 2, 3]⟩
      (by decide) (by decide)).2.2.1, rfl⟩

/-- C16 (the code on every input): the bodies of `operator!=` and `operator>=`
call themselves with the same arguments and `operator<=` calls `operator>=`, so
whatever bound is put on the depth of the calls, none of the three returns a value. -/
theorem C16_derived_comparisons_never_return (x y : Vector T) (fuel : Nat) :
    x.opNe y fuel = none ∧ x.opGe y fuel = none ∧ x.opLe y fuel = none := by
  have hne : ∀ f, x.opNe y f = none := by
    intro f
    induction f with
    | zero => rfl
    | succ f ih => simpa [Vector.opNe] using ih
  have hge : ∀ (a b : Vector T) f, a.opGe b f = none := by
    intro a b f
    induction f with
    | zero => rfl
    | succ f ih => simpa [Vector.opGe] using ih
  refine ⟨hne fuel, hge x y fuel, ?_⟩
  cases fuel with
  | zero => rfl
  | succ f => simpa [Vector.opLe] using hge y x f

/-- C17 (the code at the failing input): with a value whose copy throws,
`PushBack(const T&)` on a vector of one element propagates the failure and
leaves the vector as it was, but on the default-constructed vector and on a
cleared vector of capacity 2 it first indexes `data_[size_ - 1]` with
`size_ == 0`, which is undefined behaviour, not a propagated failure. -/
theorem C17_pushback_constref_failure :
    (⟨1, 1, some [Fragile.good]⟩ : Vector Fragile).PushBackConstRef Fragile.bad
      = Except.error (Fault.propagated ⟨1, 1, some [Fragile.good]⟩) ∧
    (Vector.ctor : Vector Fragile).PushBackConstRef Fragile.bad
      = Except.error Fault.undefinedBehaviour ∧
    (Vector.Clear ⟨2, 2, some [Fragile.good, Fragile.good]⟩ : Vector Fragile).PushBackConstRef
      Fragile.bad = Except.error Fault.undefinedBehaviour := by
  refine ⟨rfl, rfl, rfl⟩

/-! ## Capacity under `Reserve` and repeated `PushBack` -/

/-- C18: on an empty vector whose block has `capacity_` slots, `Reserve(n)`
followed by `PushBack(T&&)` for each of `N <= n` values returns normally at
every step, and after each of the appends the capacity is the capacity right
after `Reserve(n)`.  From the default-constructed vector, `Reserve(5)` gives
capacity 5 and size 0, five appends keep capacity 5 and a sixth makes it 10. -/
theorem C18_reserve_then_pushback [Element T] (v : Vector T) (n : Nat) (xs : List T)
    (h0 : v.size_ = 0) (hbuf : v.slots = v.capacity_) (hcap : v.capacity_ < SIZE_T_MOD)
    (hn : n < SIZE_T_MOD) (hN : xs.length ≤ n) :
    (∃ r, v.Reserve n = Except.ok r ∧ r.Size = 0 ∧ r.Capacity ≥ n ∧
      ∀ k, k ≤ xs.length →
        ∃ rk, r.PushBackAll (xs.take k) = Except.ok rk ∧ rk.Size = k ∧
          rk.Capacity = r.Capacity) ∧
    (Vector.ctor : Vector Nat).Reserve 5 = Except.ok ⟨0, 5, some [0, 0, 0, 0, 0]⟩ ∧
    (⟨0, 5, some [0, 0, 0, 0, 0]⟩ : Vector Nat).PushBackAll [1, 2, 3, 4, 5]
      = Except.ok ⟨5, 5, some [1, 2, 3, 4, 5]⟩ ∧
    (⟨5, 5, some [1, 2, 3, 4, 5]⟩ : Vector Nat).PushBack 6
      = Except.ok ⟨6, 10, some [1, 2, 3, 4, 5, 6, 0, 0, 0, 0]⟩ := by
  refine ⟨?_, rfl, rfl, rfl⟩
  obtain ⟨r, hr, fs, fc, fsl, _, _⟩ := Reserve_spec v n (by omega) hbuf
  have hrs : r.size_ = 0 := by omega
  have hrc : r.capacity_ < SIZE_T_MOD := by omega
  refine ⟨r, hr, hrs, by show n ≤ r.capacity_; omega, ?_⟩
  intro k hk
  have hlen : (xs.take k).length = k := by simp only [List.length_take]; omega
  have hfit : r.size_ + (xs.take k).length ≤ r.capacity_ := by omega
  obtain ⟨rk, hrk, _⟩ := PushBackAll_spec (xs.take k) r (by omega) fsl hrc (Or.inr hfit)
  obtain ⟨gs, _, _, gkeep⟩ := PushBackAll_fields (xs.take k) r rk (by omega) hrc
    (Or.inr hfit) hrk
  exact ⟨rk, hrk, by show rk.size_ = k; omega, gkeep hfit⟩

/-- C18 at the default-constructed vector, `n = 3` and two appended values. -/
theorem C18_reserve_then_pushback_witness :
    ((Vector.ctor : Vector Nat).size_ = 0 ∧
      (Vector.ctor : Vector Nat).slots = (Vector.ctor : Vector Nat).capacity_ ∧
      (Vector.ctor : Vector Nat).capacity_ < SIZE_T_MOD ∧ 3 < SIZE_T_MOD ∧
      [8, 9].length ≤ 3) ∧
    ∃ r, (Vector.ctor : Vector Nat).Reserve 3 = Except.ok r ∧ r.Size = 0 ∧ r.Capacity ≥ 3 ∧
      ∀ k, k ≤ [8, 9].length →
        ∃ rk, r.PushBackAll ([8, 9].take k) = Except.ok rk ∧ rk.Size = k ∧
          rk.Capacity = r.Capacity := by
  have h3 : 3 < SIZE_T_MOD := by show 3 < 2 ^ 64; norm_num
  have hc : (Vector.ctor : Vector Nat).capacity_ < SIZE_T_MOD := by
    show 0 < 2 ^ 64; norm_num
  exact ⟨⟨rfl, rfl, hc, h3, by decide⟩,
    (C18_reserve_then_pushback (Vector.ctor : Vector Nat) 3 [8, 9] rfl rfl hc h3
      (by decide)).1⟩

/-- C19: for a vector with `size_ <= capacity_` and initial capacity `c0`, after
`N` calls of `PushBack(T&&)` (with `size_ + N` at most `2 ^ 63`, so that no
doubling leaves `size_t`) the capacity is `c0 * 2 ^ k` for some `k` when
`c0 > 0`, and is 0 or a power of two when `c0 == 0`; the calls do return
normally when the block has `capacity_` slots. -/
theorem C19_capacity_power_of_two [Element T] (v : Vector T) (xs : List T)
    (hsz : v.size_ ≤ v.capacity_) (hcap : v.capacity_ < SIZE_T_MOD)
    (hN : v.size_ + xs.length ≤ 2 ^ 63) :
    (v.slots = v.capacity_ → ∃ r, v.PushBackAll xs = Except.ok r) ∧
    (∀ r, v.PushBackAll xs = Except.ok r →
      (0 < v.Capacity → ∃ k, r.Capacity = v.Capacity * 2 ^ k) ∧
      (v.Capacity = 0 → r.Capacity = 0 ∨ ∃ k, r.Capacity = 2 ^ k)) := by
  constructor
  · intro hbuf
    obtain ⟨r, hr, _⟩ := PushBackAll_spec xs v hsz hbuf hcap (Or.inl hN)
    exact ⟨r, hr⟩
  · intro r hr
    exact (PushBackAll_fields xs v r hsz hcap (Or.inl hN) hr).2.2.1

/-- C19 at a full vector of capacity 3 and four appended values: capacity `3 * 2 ^ 2`. -/
theorem C19_capacity_power_of_two_witness :
    ((3 : Nat) ≤ 3 ∧ (3 : Nat) < SIZE_T_MOD ∧ 3 + [4, 5, 6, 7].length ≤ 2 ^ 63) ∧
    (⟨3, 3, some [1, 2, 3]⟩ : Vector Nat).PushBackAll [4, 5, 6, 7]
      = Except.ok ⟨7, 12, some [1, 2, 3, 4, 5, 6, 7, 0, 0, 0, 0, 0]⟩ ∧
    (0 < (⟨3, 3, some [1, 2, 3]⟩ : Vector Nat).Capacity →
      ∃ k, (⟨7, 12, some [1, 2, 3, 4, 5, 6, 7, 0, 0, 0, 0, 0]⟩ : Vector Nat).Capacity
        = (⟨3, 3, some [1, 2, 3]⟩ : Vector Nat).Capacity * 2 ^ k) := by
  have h3 : (3 : Nat) < SIZE_T_MOD := by show 3 < 2 ^ 64; norm_num
  have hN : 3 + [4, 5, 6, 7].length ≤ 2 ^ 63 := by norm_num
  exact ⟨⟨by decide, h3, hN⟩, rfl,
    ((C19_capacity_power_of_two (⟨3, 3, some [1, 2, 3]⟩ : Vector Nat) [4, 5, 6, 7]
      (by decide) h3 hN).2 _ rfl).1⟩

/-! ## Constructors -/

/-- C20: when no copied value throws, `Vector(n)` has `size_ == capacity_ == n`
with every element `T()`; `Vector(n, value)` has `size_ == capacity_ == n` with
every element `value`; `Vector(list)` has `size_ == capacity_ == list.size()`
with the `i`-th value of the list at index `i`; and `Vector()` has
`size_ == capacity_ == 0` and no block. -/
theorem C20_constructors [Element T] (n : Nat) (value : T) (list : List T)
    (hvalue : Element.copyThrows value = false)
    (hlist : ∀ x ∈ list, Element.copyThrows x = false) :
    (∃ r : Vector T, Vector.ctorSize n = Except.ok r ∧ r.Size = n ∧ r.Capacity = n ∧
      ∀ i, i < n → r.index i = Except.ok Element.init) ∧
    (∃ r, Vector.ctorSizeValue n value = Except.ok r ∧ r.Size = n ∧ r.Capacity = n ∧
      ∀ i, i < n → r.index i = Except.ok value) ∧
    (∃ r, Vector.ctorList list = Except.ok r ∧ r.Size = list.length ∧
      r.Capacity = list.length ∧
      ∀ i (hi : i < list.length), r.index i = Except.ok (list[i])) ∧
    ((Vector.ctor : Vector T).Size = 0 ∧ (Vector.ctor : Vector T).Capacity = 0 ∧
      (Vector.ctor : Vector T).data_ = none) := by
  refine ⟨?_, ?_, ?_, ⟨rfl, rfl, rfl⟩⟩
  · by_cases h0 : n > 0
    · obtain ⟨d, hd, _, _, dnew⟩ := storeLoop_spec (fun _ => (Element.init : T))
        (some (newArray n)) 0 n Element.init (by rw [bufLen_newArray]; omega)
      refine ⟨⟨n, n, d⟩, by simp only [Vector.ctorSize, h0, if_true, hd], rfl, rfl, ?_⟩
      intro i hi
      show readSlot d i = Except.ok Element.init
      rw [dnew i (Nat.zero_le _) (by omega), iterate_const_init]
    · have hn : n = 0 := by omega
      subst hn
      exact ⟨⟨0, 0, none⟩, by simp [Vector.ctorSize], rfl, rfl,
        fun i hi => absurd hi (Nat.not_lt_zero _)⟩
  · by_cases h0 : n > 0
    · obtain ⟨d, hd, _, _, dnew⟩ := storeLoop_spec (id : T → T)
        (some (newArray n)) 0 n value (by rw [bufLen_newArray]; omega)
      refine ⟨⟨n, n, d⟩, ?_, rfl, rfl, ?_⟩
      · simp only [Vector.ctorSizeValue, h0, if_true, hvalue, Bool.false_eq_true, if_false, hd]
      · intro i hi
        show readSlot d i = Except.ok value
        rw [dnew i (Nat.zero_le _) (by omega), Function.iterate_id]
        rfl
    · have hn : n = 0 := by omega
      subst hn
      exact ⟨⟨0, 0, none⟩, by simp [Vector.ctorSizeValue], rfl, rfl,
        fun i hi => absurd hi (Nat.not_lt_zero _)⟩
  · by_cases h0 : list.length ≠ 0
    · obtain ⟨d, hd, _, dget⟩ := moveLoop_spec (some list) (some (newArray list.length))
        list.length (by simp only [bufLen]; omega) (by rw [bufLen_newArray])
      refine ⟨⟨list.length, list.length, d⟩, ?_, rfl, rfl, ?_⟩
      · simp only [Vector.ctorList, copyLoop_eq_moveLoop _ list hlist, hd]
        rw [if_pos h0]
      · intro i hi
        show readSlot d i = Except.ok list[i]
        rw [dget i hi, readSlot_some list i hi]
    · have hl : list.length = 0 := by omega
      refine ⟨⟨0, 0, none⟩, by simp only [Vector.ctorList, h0, if_false], hl.symm, hl.symm, ?_⟩
      intro i hi
      omega

/-- C20 at `n = 2`, `value = 7` and the list `[4, 5, 6]`. -/
theorem C20_constructors_witness :
    (Element.copyThrows (7 : Nat) = false ∧
      ∀ x ∈ [4, 5, 6], Element.copyThrows (x : Nat) = false) ∧
    (Vector.ctorSize 2 : Except (Fault Nat) (Vector Nat)) = Except.ok ⟨2, 2, some [0, 0]⟩ ∧
    (Vector.ctorSizeValue 2 7 : Except (Fault Nat) (Vector Nat))
      = Except.ok ⟨2, 2, some [7, 7]⟩ ∧
    ∃ r : Vector Nat, Vector.ctorList [4, 5, 6] = Except.ok r ∧ r.Size = [4, 5, 6].length ∧
      r.Capacity = [4, 5, 6].length ∧
      ∀ i (hi : i < [4, 5, 6].length), r.index i = Except.ok ([4, 5, 6][i]) :=
  ⟨⟨rfl, fun _ _ => rfl⟩, rfl, rfl,
    (C20_constructors 2 (7 : Nat) [4, 5, 6] rfl (fun _ _ => rfl)).2.2.1⟩

end VectorH
